import Mathlib

/-!
# Verification of the documentation config generator

This development is a shallow embedding of `scripts/create-config.js`, the
build-time script that turns `documentation.js` metadata for each turf
package into the website's `config.json`.

Modelling conventions:
* JavaScript strings are Lean `String`s; `String.replace(pat, r)` (which
  replaces only the *first* occurrence of a plain-string pattern) and
  `String.split` are re-implemented character by character below.
* JS values that may be `false`/`null`/absent are modelled with `Option`
  (the meaning of `none` is stated at each definition).
* JS exceptions (e.g. reading a property of `undefined`) are modelled with
  `Except Unit`: `.error ()` means the script throws a `TypeError`.
* `docs.paths` is a JS object, modelled as an association list where a later
  binding shadows an earlier one (assignment appends, lookup scans from the
  end), mirroring JS property assignment/lookup for string keys.
-/

/-! ## JS string primitives -/

/-- `s.replace(pat, repl)` on character lists: replaces the **first**
occurrence of `pat` only, like the JS `String.prototype.replace` with a
plain-string pattern.  An empty pattern matches at the start. -/
def listReplaceFirst (s pat repl : List Char) : List Char :=
  match s with
  | [] => if pat.isEmpty then repl else []
  | c :: rest =>
    if pat.isPrefixOf s then repl ++ s.drop pat.length
    else c :: listReplaceFirst rest pat repl

/-- String version of `listReplaceFirst`; this is JS `s.replace(pat, repl)`
for a plain-string `pat` (first occurrence only). -/
def jsReplaceFirst (s pat repl : String) : String :=
  ⟨listReplaceFirst s.data pat.data repl.data⟩

/-- The characters of `s` strictly before the first occurrence of `pat`
(all of `s` if `pat` does not occur).  `s.split(pat)[0]` in JS. -/
def listTakeUntil (s pat : List Char) : List Char :=
  match s with
  | [] => []
  | c :: rest =>
    if pat.isPrefixOf s then []
    else c :: listTakeUntil rest pat

/-- JS `s.split(pat)[0]` for a plain (regex-escaped) pattern `pat`. -/
def jsSplitHead (s pat : String) : String :=
  ⟨listTakeUntil s.data pat.data⟩

/-- Whether `pat` occurs as a contiguous run inside `s`. -/
def listContains (s pat : List Char) : Bool :=
  match s with
  | [] => pat.isEmpty
  | _ :: rest => pat.isPrefixOf s || listContains rest pat

/-- JS `s.indexOf(pat) !== -1`. -/
def jsContains (s pat : String) : Bool :=
  listContains s.data pat.data

/-- `s.toUpperCase()`: character-wise upper-casing (the manifest keys and
symbol names are ASCII, for which this agrees with JS). -/
def jsToUpper (s : String) : String :=
  ⟨s.data.map Char.toUpper⟩

/-! ## The manifest `paths` object (`documentation.yml`) -/

/-- A JS object with string keys and string values, as an assoc list. -/
abbrev Paths := List (String × String)

/-- JS property lookup `o[k]`: the most recent binding wins. -/
def objGet (o : Paths) (k : String) : Option String :=
  (o.reverse.find? (fun kv => kv.1 == k)).map (·.2)

/-- `Object.keys(docs.paths).forEach(name => docs.paths[name.toUpperCase()] =
docs.paths[name])` — every key is duplicated in upper case, iterating over a
snapshot of the original keys while assignments land in the live object. -/
def addUpperKeys (o : Paths) : Paths :=
  (o.map (·.1)).foldl
    (fun acc k =>
      match objGet acc k with
      | some v => acc ++ [(jsToUpper k, v)]
      | none => acc)
    o

/-- `getLink(name)`: `docs.paths[name.toUpperCase()] || null`.  `none` is JS
`null`; a falsy (empty) stored string also yields `null`. -/
def getLink (o : Paths) (name : String) : Option String :=
  match objGet (addUpperKeys o) (jsToUpper name) with
  | some v => if v = "" then none else some v
  | none => none

/-! ## Description (remark) nodes and `concatTags` -/

/-- A documentation text node: a plain text node (has a `value`), or a link
node (has `children`, whose first child's `value` is the link text, plus an
optional `url` and a `jsdoc` flag). -/
inductive DescNode where
  | text (value : String)
  | link (childValue : String) (url : Option String) (jsdoc : Bool)
deriving DecidableEq, Repr

/-- JS string coercion of a possibly-`undefined` value used in `'' + link`. -/
def jsUndef : Option String → String
  | some s => s
  | none => "undefined"

/-- The fragment rendered for one node inside `concatTags`'s `inNode.map`:
a plain node contributes its `value`; a link node contributes an anchor
(when `addLink`), preferring the manifest link when the node is a resolved
jsdoc symbol and falling back to the node's own `url` otherwise. -/
def fragmentOf (paths : Paths) (addLink : Bool) : DescNode → String
  | .text v => v
  | .link cv url jd =>
    if addLink = false then cv
    else
      let link := getLink paths cv
      let link2 := if link = none ∨ jd = false then url else link
      "<a target=\"_blank\" href=\"" ++ jsUndef link2 ++ "\">" ++ cv ++ "</a>"

/-- The body of `concatTags` once `inNode` is known to be an array:
map each node to its fragment, join with single spaces, replace the first
`" ."` with `"."`, and append `": see below"` if the result is exactly
`"Optional parameters"`. -/
def concatTagsStr (paths : Paths) (addLink : Bool) (nodes : List DescNode) : String :=
  let outDescr :=
    jsReplaceFirst (String.intercalate " " (nodes.map (fragmentOf paths addLink))) " ." "."
  if outDescr = "Optional parameters" then outDescr ++ ": see below" else outDescr

/-- `concatTags(inNode, addLink)`: `none` input is JS `undefined`/`null`, for
which the function returns `false` (modelled as `none`). -/
def concatTags (paths : Paths) (inNode : Option (List DescNode)) (addLink : Bool) :
    Option String :=
  match inNode with
  | none => none
  | some nodes => some (concatTagsStr paths addLink nodes)

/-! ## Type nodes and `getType`/`createLink` -/

/-- The doctrine type-expression shapes `getType` recognises.  (Other
doctrine node kinds fall off the end of the JS function, yielding
`undefined`; no claim exercises them and they are not modelled.) -/
inductive TypeNode where
  | union (elements : List TypeNode)
  | optional (expression : TypeNode)
  | nameExpr (name : String)
  | typeApp (expression : TypeNode) (applications : List TypeNode)

/-- JS `node.name` where only `NameExpression` nodes carry a `name`;
string-coerced (`undefined` otherwise), as used in `'Optional: ' + name`
and `expression.name + ' <'`. -/
def jsNameOf : TypeNode → String
  | .nameExpr n => n
  | _ => "undefined"

/-- `createLink(name, addLink)`. -/
def createLink (paths : Paths) (addLink : Bool) (name : String) : String :=
  match getLink paths name with
  | none => name
  | some u =>
    if addLink then "<a target=\"_blank\" href=\"" ++ u ++ "\">" ++ name ++ "</a>"
    else name

mutual

/-- `getType` on a present node.  A `TypeError` (`.error ()`) arises when an
`OptionalType` sits directly inside a `TypeApplication`'s arguments: the JS
falls through to `createLink(node.name, addLink)` with `node.name` being
`undefined`, and `getLink` then calls `undefined.toUpperCase()`. -/
def getTypeJ (paths : Paths) (addLink : Bool) : TypeNode → Except Unit String
  | .union els => do
    let parts ← getTypeList paths addLink els
    pure ("(" ++ String.intercalate " | " parts ++ ")")
  | .optional expr => pure ("Optional: " ++ jsNameOf expr)
  | .nameExpr n => pure (createLink paths addLink n)
  | .typeApp expr apps => do
    let parts ← getTypeApps paths addLink apps
    pure (jsNameOf expr ++ " <" ++ String.intercalate "," parts ++ ">")

/-- Renders the elements of a `UnionType` (JS `elements.map(...)`). -/
def getTypeList (paths : Paths) (addLink : Bool) : List TypeNode → Except Unit (List String)
  | [] => pure []
  | t :: ts => do
    let s ← getTypeJ paths addLink t
    let rest ← getTypeList paths addLink ts
    pure (s :: rest)

/-- Renders the arguments of a `TypeApplication` (JS `applications.map(...)`;
note the result array is string-concatenated, i.e. joined with `","`). -/
def getTypeApps (paths : Paths) (addLink : Bool) : List TypeNode → Except Unit (List String)
  | [] => pure []
  | t :: ts => do
    let s ←
      match t with
      | .union els => do
        let ps ← getTypeList paths addLink els
        pure ("(" ++ String.intercalate " | " ps ++ ")")
      | .typeApp e as => getTypeJ paths addLink (.typeApp e as)
      | .nameExpr n => pure (createLink paths addLink n)
      | .optional _ => Except.error ()
    let rest ← getTypeApps paths addLink ts
    pure (s :: rest)

end

/-- `getType(inNode, addLink)`: `none` input (JS `undefined`) returns `false`
(the `Option`'s `none` in the `.ok` result). -/
def getType (paths : Paths) (addLink : Bool) : Option TypeNode → Except Unit (Option String)
  | none => pure none
  | some t => do
    let s ← getTypeJ paths addLink t
    pure (some s)

/-! ## Metadata shapes (the `documentation.formats.json` output) -/

/-- A remark paragraph node: `description.children[i]`, whose `children`
are the text/link fragments. -/
structure Paragraph where
  children : List DescNode
deriving Repr

/-- A remark root node (`description` of an entry, a parameter, a property,
a return or a throw). -/
structure Description where
  children : List Paragraph
deriving Repr

/-- One entry of `metadata.examples`. -/
structure Example where
  description : String
deriving Repr

/-- One entry of `metadata.returns` / `metadata.throws`. -/
structure RetEntry where
  type : Option TypeNode
  description : Description

/-- One documented property of a parameter (`param.properties[i]`).
`default` is JS `prop.default` (`none` when absent). -/
structure Property where
  name : String
  type : Option TypeNode
  default : Option String
  description : Description

/-- One entry of `metadata.params`.  `properties` is absent (`none`) when the
parameter has no documented properties. -/
structure Param where
  name : String
  type : Option TypeNode
  description : Description
  lineNumber : Int
  properties : Option (List Property)

/-- One metadata entry produced by the extractor for one exported symbol.
`description` is `none` when the comment has no description at all;
`returns`/`params`/`throws` are `none` when the corresponding tags are
absent (JS `undefined`). -/
structure Metadata where
  name : String
  description : Option Description
  examples : List Example
  returns : Option (List RetEntry)
  params : Option (List Param)
  throws : Option (List RetEntry)

/-! ## Sequential, exception-propagating `Array.prototype.map` -/

/-- JS `array.map(f)` where `f` may throw: elements are visited left to
right and the first exception aborts the whole map. -/
def mapE (f : α → Except Unit β) : List α → Except Unit (List β)
  | [] => pure []
  | a :: as => do
    let b ← f a
    let bs ← mapE f as
    pure (b :: bs)

/-! ## The per-entry getters -/

/-- `getDescription(metadata)`:
`concatTags(metadata.description.children[0].children, true)`.
Reading `children` of a missing description, or `children[0]` of an empty
one, throws a `TypeError` before `concatTags`'s own `!inNode` guard can
run. -/
def getDescription (paths : Paths) (m : Metadata) : Except Unit String :=
  match m.description with
  | none => .error ()
  | some d =>
    match d.children with
    | [] => .error ()
    | para :: _ => .ok (concatTagsStr paths true para.children)

/-- `getSnippet(metadata)`: the first example's text up to the first
`"\n//addToMap"` (the separator, newline included, is consumed by
`split`); `none` is the JS `false` returned when there is no example. -/
def getSnippet (m : Metadata) : Option String :=
  m.examples.head?.map (fun e => jsSplitHead e.description "\n//addToMap")

/-- `getExample(metadata)`: the first example's text verbatim, `false`
(`none`) when there is no example. -/
def getExample (m : Metadata) : Option String :=
  m.examples.head?.map (·.description)

/-- `hasMap(metadata)`: whether the first example's text contains
`"//addToMap"`; `false` when there is no example. -/
def hasMapF (m : Metadata) : Bool :=
  match m.examples.head? with
  | some e => jsContains e.description "//addToMap"
  | none => false

/-- A `{ type, desc }` record of `getReturns`/`getThrows`.  `type` is `none`
when the declared entry has no type node (`getType` returned `false`). -/
structure RetRecord where
  type : Option String
  desc : String
deriving DecidableEq, Repr

/-- Result of `getReturns`/`getThrows`: the JS `false`, or the mapped array
whose entries are `{ type, desc }` records or `false` placeholders
(`none`). -/
inductive RetVal where
  | fls
  | arr (es : List (Option RetRecord))
deriving DecidableEq, Repr

/-- `getReturns(metadata)`. -/
def getReturns (paths : Paths) (m : Metadata) : Except Unit RetVal :=
  match m.returns with
  | none => .ok .fls
  | some rs => do
    let es ← mapE (fun r =>
      match r.description.children with
      | [] => pure none
      | para :: _ => do
        let ty ← getType paths false r.type
        pure (some ⟨ty, concatTagsStr paths false para.children⟩)) rs
    pure (.arr es)

/-- `getThrows(metadata)` (same body as `getReturns`, on `metadata.throws`). -/
def getThrows (paths : Paths) (m : Metadata) : Except Unit RetVal :=
  match m.throws with
  | none => .ok .fls
  | some rs => do
    let es ← mapE (fun r =>
      match r.description.children with
      | [] => pure none
      | para :: _ => do
        let ty ← getType paths false r.type
        pure (some ⟨ty, concatTagsStr paths false para.children⟩)) rs
    pure (.arr es)

/-! ## `Array.prototype.sort` as V8 runs it

The params comparator `(a, b) => a._lineNum - b._lineNum` is not a
consistent comparison function once `false` placeholders are in the array:
`false._lineNum` is `undefined` and the subtraction yields `NaN`, which the
ECMAScript `SortCompare` maps to `+0`.  For arrays shorter than 64 elements
V8's TimSort degenerates to: find the initial ascending run (a strictly
descending run is reversed), then binary-insert every remaining element,
the binary search moving right while the comparison is `>= 0`.  That exact
algorithm is modelled here. -/

/-- Insert `x` at position `p` of `l`. -/
def insertAt (l : List α) (p : Nat) (x : α) : List α :=
  l.take p ++ x :: l.drop p

/-- V8's binary search for the insertion point of a pivot: `isLess e` is
`comparefn(pivot, e) < 0`; the search narrows `[left, right)` by
`right := mid` when the pivot is less, `left := mid + 1` otherwise. -/
def binPos [Inhabited α] (isLess : α → Bool) (acc : List α) (left right : Nat) : Nat :=
  if h : left < right then
    if isLess (acc.getD ((left + right) / 2) default) then
      binPos isLess acc left ((left + right) / 2)
    else
      binPos isLess acc ((left + right) / 2 + 1) right
  else left
termination_by right - left
decreasing_by
  · have : (left + right) / 2 < right := by omega
    omega
  · have : left ≤ (left + right) / 2 := by omega
    omega

/-- One binary-insertion step of V8's sort. -/
def binInsert [Inhabited α] (cmp : α → α → Int) (acc : List α) (x : α) : List α :=
  insertAt acc (binPos (fun e => decide (cmp x e < 0)) acc 0 acc.length) x

/-- The initial ascending run: keep extending while
`comparefn(next, prev) >= 0`.  Returns the run (starting at `prev`) and the
unconsumed tail. -/
def countAscRun (cmp : α → α → Int) : α → List α → List α × List α
  | prev, [] => ([prev], [])
  | prev, x :: rest =>
    if 0 ≤ cmp x prev then
      (prev :: (countAscRun cmp x rest).1, (countAscRun cmp x rest).2)
    else ([prev], x :: rest)

/-- The initial strictly descending run (`comparefn(next, prev) < 0`). -/
def countDescRun (cmp : α → α → Int) : α → List α → List α × List α
  | prev, [] => ([prev], [])
  | prev, x :: rest =>
    if cmp x prev < 0 then
      (prev :: (countDescRun cmp x rest).1, (countDescRun cmp x rest).2)
    else ([prev], x :: rest)

/-- `array.sort(comparefn)` as V8 executes it on arrays of fewer than 64
elements (`NaN` comparison results are already folded to `0` in `cmp`). -/
def jsSortV8 [Inhabited α] (cmp : α → α → Int) : List α → List α
  | [] => []
  | [a] => [a]
  | a :: b :: rest =>
    if cmp b a < 0 then
      ((countDescRun cmp b rest).2).foldl (binInsert cmp)
        ((a :: (countDescRun cmp b rest).1).reverse)
    else
      ((countAscRun cmp b rest).2).foldl (binInsert cmp)
        (a :: (countAscRun cmp b rest).1)

/-! ## `getParams` -/

/-- A `{ Argument, Type, Description }` row of the params table (after the
`_lineNum` field has been deleted).  `Type'` models the JSON field `Type`
(a Lean keyword). -/
structure ParamRecord where
  Argument : String
  Type' : String
  Description : String
deriving DecidableEq, Repr

/-- An element of the intermediate `outParams` array: `{ type: null }` for a
parameter without a type, the JS `false` for a typed parameter with an
empty description, or a row still carrying its `_lineNum`. -/
inductive PEntry where
  | typeNull
  | fls
  | row (r : ParamRecord) (lineNum : Int)
deriving DecidableEq, Repr

instance : Inhabited PEntry := ⟨.fls⟩

/-- The map callback of `getParams` for one parameter. -/
def mapParam (paths : Paths) (p : Param) : Except Unit PEntry :=
  match p.type with
  | none => pure .typeNull
  | some t =>
    match p.description.children with
    | [] => pure .fls
    | para :: _ => do
      let ty ← getTypeJ paths true t
      pure (.row ⟨p.name, ty, concatTagsStr paths false para.children⟩ p.lineNumber)

/-- The `filter` predicate `param.type !== null`: only the `{ type: null }`
markers have a (JS) `null` in their `type` slot; a `false` placeholder's
`false.type` is `undefined`, which is `!== null`, so it survives. -/
def keepParam : PEntry → Bool
  | .typeNull => false
  | _ => true

/-- `(a, b) => a._lineNum - b._lineNum`: reading `_lineNum` off a `false`
placeholder gives `undefined`, the subtraction gives `NaN`, and ECMAScript
`SortCompare` turns a `NaN` comparator result into `+0`. -/
def cmpP : PEntry → PEntry → Int
  | .row _ la, .row _ lb => la - lb
  | _, _ => 0

/-- The final `forEach(param => delete param._lineNum)`: rows lose their
`_lineNum`; `false` placeholders (`none` below) are unaffected. -/
def stripLine : PEntry → Option ParamRecord
  | .row r _ => some r
  | _ => none

/-- Result of `getParams`: the JS `false`, or the array whose elements are
rows or `false` placeholders (`none`). -/
inductive ParamsVal where
  | fls
  | arr (es : List (Option ParamRecord))
deriving DecidableEq, Repr

/-- `getParams(metadata)`. -/
def getParams (paths : Paths) (m : Metadata) : Except Unit ParamsVal :=
  match m.params with
  | none => .ok .fls
  | some ps => do
    let outParams ← mapE (mapParam paths) ps
    let filtered := outParams.filter keepParam
    let finalOut := jsSortV8 cmpP filtered
    pure (.arr (finalOut.map stripLine))

/-! ## `getOptions` -/

/-- A `{ Prop, Type, Default, Description }` row of the options table;
`Prop'`/`Type'` model the JSON fields `Prop`/`Type` (Lean keywords). -/
structure OptRecord where
  Prop' : String
  Type' : Option String
  Default : Option String
  Description : String
deriving DecidableEq, Repr

/-- Result of `getOptions`: `false` when the metadata declares no params at
all, `null` when no parameter is named `options`, else the rows. -/
inductive OptionsVal where
  | fls
  | nul
  | arr (es : List OptRecord)
deriving DecidableEq, Repr

/-- `getOptions(metadata)`.  `options[0].properties` being absent, or a
property with an empty description (`children[0]` is `undefined`), throws. -/
def getOptions (paths : Paths) (m : Metadata) : Except Unit OptionsVal :=
  match m.params with
  | none => .ok .fls
  | some ps =>
    match ps.filter (fun p => p.name == "options") with
    | [] => .ok .nul
    | p0 :: _ =>
      match p0.properties with
      | none => .error ()
      | some props => do
        let es ← mapE (fun prop => do
          let defaultVal : Option String :=
            match prop.default with
            | some d => if d = "" then none else some (jsReplaceFirst d "\\" "")
            | none => none
          let ty ← getType paths false prop.type
          match prop.description.children with
          | [] => Except.error ()
          | para :: _ =>
            pure (⟨jsReplaceFirst prop.name "options." "", ty, defaultVal,
              concatTagsStr paths false para.children⟩ : OptRecord)) props
        pure (.arr es)

/-! ## The manifest TOC and the output module tree -/

/-- One entry of `docs.toc`: an object with a (truthy) `name` starts a new
group; a plain string names a module of the current group. -/
inductive TocItem where
  | group (name : String)
  | moduleName (name : String)
deriving DecidableEq, Repr

/-- The nine fields the normalizer assigns to a matched module entry, in
source order. -/
structure NormFields where
  parent : Option String
  description : String
  snippet : Option String
  example' : Option String
  hasMap : Bool
  npmName : String
  returns : RetVal
  params : ParamsVal
  options : OptionsVal
  throws : RetVal
deriving DecidableEq, Repr

/-- A module placeholder.  It is created as `{ name, hidden: false }`
(`norm = none`); when metadata matches, the nine normalized fields are
assigned (`norm = some _`). -/
structure ModuleEntry where
  name : String
  hidden : Bool
  norm : Option NormFields
deriving DecidableEq, Repr

/-- One group of the output `modules` array. -/
structure DocGroup where
  group : String
  modules : List ModuleEntry
deriving DecidableEq, Repr

/-- The written configuration `{ modules: [...] }`. -/
structure Config where
  modules : List DocGroup
deriving DecidableEq, Repr

/-- The `docs.toc.forEach` loop, with the groups list kept in reverse so
that "push onto the last group" is an operation on the head.  A module
entry before any group marker makes the JS throw
(`modules[-1].modules` is `undefined`): that is the `none` result. -/
def buildR : List TocItem → List DocGroup → Option (List DocGroup)
  | [], acc => some acc
  | .group n :: rest, acc => buildR rest (⟨n, []⟩ :: acc)
  | .moduleName n :: rest, acc =>
    match acc with
    | [] => none
    | g :: gs => buildR rest (⟨g.group, g.modules ++ [⟨n, false, none⟩]⟩ :: gs)

/-- The output skeleton built from the TOC (groups in manifest order). -/
def buildModules (toc : List TocItem) : Option (List DocGroup) :=
  (buildR toc []).map List.reverse

/-- Reads the group/module sequence back out of a module tree. -/
def flattenToc (gs : List DocGroup) : List TocItem :=
  gs.flatMap (fun g => .group g.group :: g.modules.map (fun m => TocItem.moduleName m.name))

/-- Whether `getModuleObj(name)` finds a module entry (first match across
groups, then across the group's modules). -/
def hasModule (gs : List DocGroup) (nm : String) : Bool :=
  gs.any (fun g => g.modules.any (fun m => m.name == nm))

/-- Assign `nf` to the first module (in group order, then module order)
named `nm`, leaving everything else untouched — the in-place mutation done
through `getModuleObj`. -/
def setFirstInModules (nm : String) (nf : NormFields) :
    List ModuleEntry → List ModuleEntry × Bool
  | [] => ([], false)
  | m :: ms =>
    if m.name == nm then (⟨m.name, m.hidden, some nf⟩ :: ms, true)
    else
      let (ms', found) := setFirstInModules nm nf ms
      (m :: ms', found)

/-- `setFirstInModules` lifted over the groups. -/
def setFirst (nm : String) (nf : NormFields) : List DocGroup → List DocGroup
  | [] => []
  | g :: gs =>
    let (ms', found) := setFirstInModules nm nf g.modules
    if found then ⟨g.group, ms'⟩ :: gs
    else ⟨g.group, g.modules⟩ :: setFirst nm nf gs

/-- The nine field computations of the normalizer, in assignment order;
the first `TypeError` aborts the whole run. -/
def computeNorm (paths : Paths) (parent : Option String) (npm : String)
    (md : Metadata) : Except Unit NormFields := do
  let de ← getDescription paths md
  let re ← getReturns paths md
  let pa ← getParams paths md
  let op ← getOptions paths md
  let th ← getThrows paths md
  pure ⟨parent, de, getSnippet md, getExample md, hasMapF md, npm, re, pa, op, th⟩

/-- The `docs.forEach(metadata => ...)` body for one metadata entry:
look the module up by exact name; when absent, do nothing (the entry is
silently discarded); when present, compute and assign the fields. -/
def updateFirst (paths : Paths) (parent : Option String) (npm : String)
    (gs : List DocGroup) (md : Metadata) : Except Unit (List DocGroup) :=
  if hasModule gs md.name then do
    let nf ← computeNorm paths parent npm md
    pure (setFirst md.name nf gs)
  else pure gs

/-- Normalization for one package's extracted metadata list:
`parent` is the package name iff the package exposes more than one symbol. -/
def normalizePkg (paths : Paths) (gs : List DocGroup) (npm : String)
    (docsList : List Metadata) : Except Unit (List DocGroup) :=
  let parent := if 1 < docsList.length then some npm else none
  docsList.foldlM (fun acc md => updateFirst paths parent npm acc md) gs

/-- One package: its `package.json` name and the outcome of
`documentation.build` + `formats.json` (the extractor promise). -/
structure Pkg where
  name : String
  build : Except Unit (List Metadata)

/-- The `d3.queue(1)` pipeline: packages are processed strictly one at a
time; a task's callback is only reached on success, so a rejected extractor
promise (or a `TypeError` inside the `.then`) stalls the queue — no later
package starts and `q.awaitAll`'s callback (the writer) never runs.
Returns the names of the packages that started processing, and `some`
final tree only if every package completed. -/
def runQueue (paths : Paths) : List Pkg → List DocGroup → List String × Option (List DocGroup)
  | [], gs => ([], some gs)
  | p :: rest, gs =>
    match p.build with
    | .error _ => ([p.name], none)
    | .ok docsList =>
      match normalizePkg paths gs p.name docsList with
      | .error _ => ([p.name], none)
      | .ok gs' =>
        let r := runQueue paths rest gs'
        (p.name :: r.1, r.2)

/-- The whole script: build the skeleton from the TOC, run the queue, and
write `{ modules }` — `none` when the config file is never written. -/
def configOutput (paths : Paths) (toc : List TocItem) (pkgs : List Pkg) : Option Config :=
  match buildModules toc with
  | none => none
  | some gs => ((runQueue paths pkgs gs).2).map Config.mk

/-! ## General-purpose lemmas -/

deriving instance DecidableEq for Except

theorem exc_bind_ok {α β : Type} {e : Except Unit α} {k : α → Except Unit β} {b : β} :
    (e >>= k) = .ok b ↔ ∃ a, e = .ok a ∧ k a = .ok b := by
  cases e <;> simp [Bind.bind, Except.bind]

theorem mapE_ok_forall₂ {α β : Type} {f : α → Except Unit β} :
    ∀ {l : List α} {r : List β}, mapE f l = .ok r →
      List.Forall₂ (fun a b => f a = .ok b) l r := by
  intro l
  induction l with
  | nil =>
    intro r h
    simp only [mapE, pure] at h
    cases h
    exact List.Forall₂.nil
  | cons a as ih =>
    intro r h
    simp only [mapE] at h
    rw [show (do
        let b ← f a
        let bs ← mapE f as
        pure (b :: bs) : Except Unit (List β)) =
      (f a >>= fun b => mapE f as >>= fun bs => pure (b :: bs)) from rfl] at h
    rw [exc_bind_ok] at h
    obtain ⟨b, hfa, h⟩ := h
    rw [exc_bind_ok] at h
    obtain ⟨bs, hm, h⟩ := h
    simp only [pure, Except.pure, Except.ok.injEq] at h
    cases h
    exact List.Forall₂.cons hfa (ih hm)

theorem forall₂_mem_right {α β : Type} {R : α → β → Prop} :
    ∀ {l1 : List α} {l2 : List β}, List.Forall₂ R l1 l2 → ∀ b ∈ l2, ∃ a ∈ l1, R a b := by
  intro l1 l2 h
  induction h with
  | nil => intro b hb; cases hb
  | cons hr _ ih =>
    intro b hb
    cases hb with
    | head => exact ⟨_, List.mem_cons_self _ _, hr⟩
    | tail _ hb =>
      obtain ⟨a, ha, har⟩ := ih _ hb
      exact ⟨a, List.mem_cons_of_mem _ ha, har⟩

theorem forall₂_trans_comp {α β γ : Type} {R : α → β → Prop} {S : β → γ → Prop}
    {T : α → γ → Prop} (h : ∀ a b c, R a b → S b c → T a c) :
    ∀ {l1 : List α} {l2 : List β} {l3 : List γ},
      List.Forall₂ R l1 l2 → List.Forall₂ S l2 l3 → List.Forall₂ T l1 l3 := by
  intro l1 l2 l3 h12
  induction h12 generalizing l3 with
  | nil => intro h23; cases h23; exact .nil
  | cons hr _ ih =>
    intro h23
    cases h23 with
    | cons hs h23 => exact .cons (h _ _ _ hr hs) (ih h23)

/-! ## Claim C1: description rendering -/

/-- Metadata whose description fragments are `"a"`, `"."`, `"b"`: joined they
give `"a . b"`, which has no *trailing* `" ."`, yet the code rewrites the
first (here: only interior) occurrence. -/
def mdC1 : Metadata :=
  { name := "x"
    description := some ⟨[⟨[.text "a", .text ".", .text "b"]⟩]⟩
    examples := []
    returns := none
    params := none
    throws := none }

/-- **C1, counterexample.**  The claim says only a *trailing* `" ."` is
collapsed, so the description `"a . b"` should stay `"a . b"`; the code's
`replace(' .', '.')` rewrites the first occurrence anywhere and produces
`"a. b"`. -/
theorem c1_counterexample :
    getDescription [] mdC1 = .ok "a. b" ∧ getDescription [] mdC1 ≠ .ok "a . b" := by
  constructor
  · decide
  · decide

/-- **C1 (amended).**  For a first description paragraph made of plain text
fragments `vs`, the normalized description is the fragments joined with
single spaces with the **first** occurrence of `" ."` (anywhere, not only a
trailing one) replaced by `"."`; and whenever the joined string is exactly
`"Optional parameters"`, the rendered description is
`"Optional parameters: see below"`. -/
theorem c1_amended (paths : Paths) (m : Metadata) (d : Description)
    (para : Paragraph) (rest : List Paragraph) (vs : List String)
    (h1 : m.description = some d) (h2 : d.children = para :: rest)
    (h3 : para.children = vs.map DescNode.text) :
    getDescription paths m =
      .ok (if jsReplaceFirst (String.intercalate " " vs) " ." "." = "Optional parameters"
        then jsReplaceFirst (String.intercalate " " vs) " ." "." ++ ": see below"
        else jsReplaceFirst (String.intercalate " " vs) " ." ".") ∧
    (String.intercalate " " vs = "Optional parameters" →
      getDescription paths m = .ok "Optional parameters: see below") := by
  have key : getDescription paths m =
      .ok (if jsReplaceFirst (String.intercalate " " vs) " ." "." = "Optional parameters"
        then jsReplaceFirst (String.intercalate " " vs) " ." "." ++ ": see below"
        else jsReplaceFirst (String.intercalate " " vs) " ." ".") := by
    have hfr : (vs.map DescNode.text).map (fragmentOf paths true) = vs := by
      rw [List.map_map]
      exact List.map_id'' (fun v => rfl) vs
    simp only [getDescription, h1, h2, concatTagsStr, h3, hfr]
  constructor
  · exact key
  · intro h
    rw [key, h]
    have hrep : jsReplaceFirst "Optional parameters" " ." "." = "Optional parameters" := by
      decide
    rw [hrep]
    simp

/-- Metadata whose description is exactly the phrase `"Optional parameters"`. -/
def mdC1w : Metadata :=
  { name := "w"
    description := some ⟨[⟨[.text "Optional", .text "parameters"]⟩]⟩
    examples := []
    returns := none
    params := none
    throws := none }

/-- Witness for `c1_amended` at a concrete input. -/
theorem c1_amended_witness :
    getDescription [] mdC1w = .ok "Optional parameters: see below" :=
  (c1_amended [] mdC1w ⟨[⟨[.text "Optional", .text "parameters"]⟩]⟩
    ⟨[.text "Optional", .text "parameters"]⟩ [] ["Optional", "parameters"]
    rfl rfl rfl).2 (by decide)

/-! ## Claim C2: snippet and hasMap -/

/-- `listTakeUntil` is the identity when the pattern does not occur. -/
theorem takeUntil_not_found {pat : List Char} :
    ∀ {s : List Char}, listContains s pat = false → listTakeUntil s pat = s := by
  intro s
  induction s with
  | nil => intro _; rfl
  | cons c rest ih =>
    intro h
    simp only [listContains, Bool.or_eq_false_iff] at h
    simp [listTakeUntil, h.1, ih h.2]

/-- When the pattern occurs, `listTakeUntil` is the text before the first
occurrence: the remainder starts with `pat`, and no decomposition around
`pat` has a shorter prefix. -/
theorem takeUntil_found {pat : List Char} (hne : pat ≠ []) :
    ∀ {s : List Char}, listContains s pat = true →
      (∃ suf, s = listTakeUntil s pat ++ pat ++ suf) ∧
      (∀ pre suf, s = pre ++ pat ++ suf → (listTakeUntil s pat).length ≤ pre.length) := by
  intro s
  induction s with
  | nil =>
    intro h
    simp only [listContains, List.isEmpty_iff] at h
    exact absurd h hne
  | cons c rest ih =>
    intro h
    by_cases hp : pat.isPrefixOf (c :: rest) = true
    · obtain ⟨t, ht⟩ := List.isPrefixOf_iff_prefix.mp hp
      constructor
      · refine ⟨t, ?_⟩
        simp only [listTakeUntil, hp, if_true, List.nil_append]
        exact ht.symm
      · intro pre suf _
        simp [listTakeUntil, hp]
    · have hc : listContains rest pat = true := by
        simp only [listContains, Bool.or_eq_true] at h
        rcases h with h | h
        · exact absurd h hp
        · exact h
      obtain ⟨⟨suf, hsuf⟩, hmin⟩ := ih hc
      have hstep : listTakeUntil (c :: rest) pat = c :: listTakeUntil rest pat := by
        simp [listTakeUntil, hp]
      constructor
      · refine ⟨suf, ?_⟩
        rw [hstep, List.cons_append, List.cons_append, ← hsuf]
      · intro pre suf' hps
        cases pre with
        | nil =>
          exact absurd (List.isPrefixOf_iff_prefix.mpr ⟨suf', by rw [hps]; simp⟩) hp
        | cons c' pre' =>
          rw [List.cons_append, List.cons_append] at hps
          injection hps with hcc hrest
          rw [hstep, List.length_cons, List.length_cons]
          exact Nat.succ_le_succ (hmin pre' suf' (by rw [hrest, List.append_assoc]))

/-- `listContains` decides the infix relation. -/
theorem listContains_iff {pat : List Char} :
    ∀ {s : List Char}, listContains s pat = true ↔ pat <:+: s := by
  intro s
  induction s with
  | nil => simp [listContains, List.isEmpty_iff, List.infix_nil]
  | cons c rest ih =>
    simp only [listContains, Bool.or_eq_true, List.isPrefixOf_iff_prefix, ih]
    constructor
    · rintro (hp | hi)
      · exact hp.isInfix
      · exact List.infix_cons hi
    · rintro ⟨p, q, hpq⟩
      cases p with
      | nil =>
        left
        exact ⟨q, by simpa using hpq⟩
      | cons c' p' =>
        right
        rw [List.cons_append, List.cons_append] at hpq
        injection hpq with hcc hrest
        exact ⟨p', q, hrest⟩

/-- Metadata with the example text `"foo\n//addToMap\nbar"`. -/
def mdC2 : Metadata :=
  { name := "x"
    description := none
    examples := [⟨"foo\n//addToMap\nbar"⟩]
    returns := none
    params := none
    throws := none }

/-- **C2, counterexample.**  For the example text `"foo\n//addToMap\nbar"`
the claim predicts `snippet = "foo\n"`; the code splits on the regex
`/\n\/\/addToMap/`, whose match *includes* the newline, so the snippet is
`"foo"` (no trailing newline).  `hasMap` is `true` as claimed. -/
theorem c2_counterexample :
    getSnippet mdC2 = some "foo" ∧ getSnippet mdC2 ≠ some "foo\n" ∧ hasMapF mdC2 = true := by
  refine ⟨by decide, by decide, by decide⟩

/-- **C2 (amended).**  `snippet` is the first example's text truncated
before the first occurrence of `"\n//addToMap"` — the separator, its
leading newline included, is removed — and all of the text when that
separator does not occur (`false`/`none` with no example at all);
`hasMap` is true iff the first example's text contains `"//addToMap"`. -/
theorem c2_amended (m : Metadata) :
    (m.examples = [] → getSnippet m = none ∧ getExample m = none ∧ hasMapF m = false) ∧
    (∀ e rest, m.examples = e :: rest →
      getExample m = some e.description ∧
      (hasMapF m = true ↔ "//addToMap".data <:+: e.description.data) ∧
      ∃ snip, getSnippet m = some snip ∧
        (¬ ("\n//addToMap".data <:+: e.description.data) → snip = e.description) ∧
        (("\n//addToMap".data <:+: e.description.data) →
          (∃ suf, e.description.data = snip.data ++ "\n//addToMap".data ++ suf) ∧
          (∀ pre suf, e.description.data = pre ++ "\n//addToMap".data ++ suf →
            snip.data.length ≤ pre.length))) := by
  constructor
  · intro h
    simp [getSnippet, getExample, hasMapF, h]
  · intro e rest h
    refine ⟨by simp [getExample, h], ?_, ?_⟩
    · simp [hasMapF, h, jsContains, listContains_iff]
    · refine ⟨jsSplitHead e.description "\n//addToMap", by simp [getSnippet, h], ?_, ?_⟩
      · intro hni
        have hcf : listContains e.description.data ("\n//addToMap".data) = false := by
          cases hcc : listContains e.description.data ("\n//addToMap".data) with
          | true => exact absurd (listContains_iff.mp hcc) hni
          | false => rfl
        show jsSplitHead e.description "\n//addToMap" = e.description
        unfold jsSplitHead
        rw [takeUntil_not_found hcf]
      · intro hin
        have hct : listContains e.description.data ("\n//addToMap".data) = true :=
          listContains_iff.mpr hin
        have hne : ("\n//addToMap".data : List Char) ≠ [] := by decide
        obtain ⟨⟨suf, hsuf⟩, hmin⟩ := takeUntil_found hne hct
        exact ⟨⟨suf, hsuf⟩, hmin⟩

/-- Witness for `c2_amended` at the concrete example text. -/
theorem c2_amended_witness :
    mdC2.examples = [⟨"foo\n//addToMap\nbar"⟩] ∧
      (getExample mdC2 = some "foo\n//addToMap\nbar" ∧
        (hasMapF mdC2 = true ↔ "//addToMap".data <:+: "foo\n//addToMap\nbar".data) ∧
        ∃ snip, getSnippet mdC2 = some snip ∧
          (¬ ("\n//addToMap".data <:+: "foo\n//addToMap\nbar".data) →
            snip = "foo\n//addToMap\nbar") ∧
          (("\n//addToMap".data <:+: "foo\n//addToMap\nbar".data) →
            (∃ suf, "foo\n//addToMap\nbar".data = snip.data ++ "\n//addToMap".data ++ suf) ∧
            (∀ pre suf, "foo\n//addToMap\nbar".data = pre ++ "\n//addToMap".data ++ suf →
              snip.data.length ≤ pre.length))) :=
  ⟨rfl, (c2_amended mdC2).2 ⟨"foo\n//addToMap\nbar"⟩ [] rfl⟩

/-! ## Claim C10: missing documentation fields -/

/-- Metadata whose description block is present but empty (no paragraph),
with every other documentation field absent. -/
def mdC10 : Metadata :=
  { name := "x"
    description := some ⟨[]⟩
    examples := []
    returns := none
    params := none
    throws := none }

/-- **C10, counterexample.**  A metadata entry with no description block
does not get a `false`/`null` placeholder: `getDescription` reads
`children[0].children` of an empty `children` array and throws, and the
whole normalization of a matched module aborts with that `TypeError`. -/
theorem c10_counterexample :
    getDescription [] mdC10 = .error () ∧
      computeNorm [] none "turf-x" mdC10 = .error () ∧
      updateFirst [] none "turf-x" [⟨"G", [⟨"x", false, none⟩]⟩] mdC10 = .error () := by
  refine ⟨rfl, rfl, by decide⟩

/-- **C10 (amended).**  Missing `returns`, `params`, `options` and `throws`
and an empty examples list are represented as `false`/`null` placeholders
without raising; but a metadata entry whose description is absent, or whose
description block has no paragraph, makes `getDescription` throw a
`TypeError` (the placeholder guard inside `concatTags` is unreachable for
it). -/
theorem c10_amended (paths : Paths) (m : Metadata) :
    (m.examples = [] → getSnippet m = none ∧ getExample m = none ∧ hasMapF m = false) ∧
    (m.returns = none → getReturns paths m = .ok .fls) ∧
    (m.throws = none → getThrows paths m = .ok .fls) ∧
    (m.params = none → getParams paths m = .ok .fls ∧ getOptions paths m = .ok .fls) ∧
    (m.description = none → getDescription paths m = .error ()) ∧
    (∀ d, m.description = some d → d.children = [] → getDescription paths m = .error ()) := by
  refine ⟨?_, ?_, ?_, ?_, ?_, ?_⟩
  · intro h; simp [getSnippet, getExample, hasMapF, h]
  · intro h; simp [getReturns, h]
  · intro h; simp [getThrows, h]
  · intro h; exact ⟨by simp [getParams, h], by simp [getOptions, h]⟩
  · intro h; simp [getDescription, h]
  · intro d h1 h2; simp [getDescription, h1, h2]

/-- Witness for `c10_amended` at a concrete input. -/
theorem c10_amended_witness :
    (getSnippet ⟨"w", none, [], none, none, none⟩ = none ∧
      getExample ⟨"w", none, [], none, none, none⟩ = none ∧
      hasMapF ⟨"w", none, [], none, none, none⟩ = false) ∧
    getReturns [] ⟨"w", none, [], none, none, none⟩ = .ok .fls ∧
    getThrows [] ⟨"w", none, [], none, none, none⟩ = .ok .fls ∧
    getParams [] ⟨"w", none, [], none, none, none⟩ = .ok .fls ∧
    getOptions [] ⟨"w", none, [], none, none, none⟩ = .ok .fls ∧
    getDescription [] ⟨"w", none, [], none, none, none⟩ = .error () := by
  have h := c10_amended [] ⟨"w", none, [], none, none, none⟩
  exact ⟨h.1 rfl, h.2.1 rfl, h.2.2.1 rfl, (h.2.2.2.1 rfl).1, (h.2.2.2.1 rfl).2,
    h.2.2.2.2.1 rfl⟩

/-! ## Claim C5: returns and throws -/

/-- What `getReturns`/`getThrows` produce for one declared entry: a `false`
placeholder (`none`) kept in place when the descriptive text is empty, and
a `{ type, desc }` record otherwise. -/
def retSpec (paths : Paths) (r : RetEntry) (e : Option RetRecord) : Prop :=
  (r.description.children = [] → e = none) ∧
  (∀ para rest, r.description.children = para :: rest →
    ∃ ty, getType paths false r.type = .ok ty ∧
      e = some ⟨ty, concatTagsStr paths false para.children⟩)

/-- **C5.**  `returns` and `throws` are `false` when the metadata declares
none; otherwise each declared entry maps, in place (`Forall₂` preserves
positions and length, so placeholders are not filtered out), to a
`{ type, desc }` record when its descriptive text is non-empty and to the
literal `false` when the description is empty. -/
theorem c5_returns_throws (paths : Paths) (m : Metadata) :
    (m.returns = none → getReturns paths m = .ok .fls) ∧
    (m.throws = none → getThrows paths m = .ok .fls) ∧
    (∀ rs out, m.returns = some rs → getReturns paths m = .ok (.arr out) →
      List.Forall₂ (retSpec paths) rs out) ∧
    (∀ rs out, m.throws = some rs → getThrows paths m = .ok (.arr out) →
      List.Forall₂ (retSpec paths) rs out) := by
  have main : ∀ (rs : List RetEntry) (out : List (Option RetRecord)),
      mapE (fun r =>
        match r.description.children with
        | [] => pure none
        | para :: _ => do
          let ty ← getType paths false r.type
          pure (some (⟨ty, concatTagsStr paths false para.children⟩ : RetRecord))) rs = .ok out →
      List.Forall₂ (retSpec paths) rs out := by
    intro rs out hm
    refine (mapE_ok_forall₂ hm).imp ?_
    intro r e hre
    constructor
    · intro hdc
      rw [hdc] at hre
      simp only [pure, Except.pure, Except.ok.injEq] at hre
      exact hre.symm
    · intro para rest hdc
      rw [hdc] at hre
      have hre2 : (getType paths false r.type >>= fun ty =>
          pure (some (⟨ty, concatTagsStr paths false para.children⟩ : RetRecord))) = .ok e := hre
      rw [exc_bind_ok] at hre2
      obtain ⟨ty, hty, hp⟩ := hre2
      simp only [pure, Except.pure, Except.ok.injEq] at hp
      exact ⟨ty, hty, hp.symm⟩
  refine ⟨?_, ?_, ?_, ?_⟩
  · intro h; simp [getReturns, h]
  · intro h; simp [getThrows, h]
  · intro rs out h1 h2
    simp only [getReturns, h1] at h2
    rw [show (do
        let es ← mapE (fun r =>
          match r.description.children with
          | [] => pure none
          | para :: _ => do
            let ty ← getType paths false r.type
            pure (some (⟨ty, concatTagsStr paths false para.children⟩ : RetRecord))) rs
        pure (RetVal.arr es) : Except Unit RetVal) =
      (mapE (fun r =>
        match r.description.children with
        | [] => pure none
        | para :: _ => do
          let ty ← getType paths false r.type
          pure (some (⟨ty, concatTagsStr paths false para.children⟩ : RetRecord))) rs >>=
        fun es => pure (RetVal.arr es)) from rfl] at h2
    rw [exc_bind_ok] at h2
    obtain ⟨es, hm, hp⟩ := h2
    simp only [pure, Except.pure, Except.ok.injEq, RetVal.arr.injEq] at hp
    cases hp
    exact main rs out hm
  · intro rs out h1 h2
    simp only [getThrows, h1] at h2
    rw [show (do
        let es ← mapE (fun r =>
          match r.description.children with
          | [] => pure none
          | para :: _ => do
            let ty ← getType paths false r.type
            pure (some (⟨ty, concatTagsStr paths false para.children⟩ : RetRecord))) rs
        pure (RetVal.arr es) : Except Unit RetVal) =
      (mapE (fun r =>
        match r.description.children with
        | [] => pure none
        | para :: _ => do
          let ty ← getType paths false r.type
          pure (some (⟨ty, concatTagsStr paths false para.children⟩ : RetRecord))) rs >>=
        fun es => pure (RetVal.arr es)) from rfl] at h2
    rw [exc_bind_ok] at h2
    obtain ⟨es, hm, hp⟩ := h2
    simp only [pure, Except.pure, Except.ok.injEq, RetVal.arr.injEq] at hp
    cases hp
    exact main rs out hm

/-- Metadata with one empty-description return, one real return, and no
`throws` at all. -/
def mdC5 : Metadata :=
  { name := "x"
    description := none
    examples := []
    returns := some [⟨none, ⟨[]⟩⟩, ⟨some (.nameExpr "Error"), ⟨[⟨[.text "err"]⟩]⟩⟩]
    params := none
    throws := none }

/-- Witness for `c5_returns_throws` at a concrete input. -/
theorem c5_returns_throws_witness :
    List.Forall₂ (retSpec []) [⟨none, ⟨[]⟩⟩, ⟨some (.nameExpr "Error"), ⟨[⟨[.text "err"]⟩]⟩⟩]
      [none, some ⟨some "Error", "err"⟩] ∧
      getThrows [] mdC5 = .ok .fls :=
  ⟨(c5_returns_throws [] mdC5).2.2.1 _ _ rfl rfl, (c5_returns_throws [] mdC5).2.1 rfl⟩

/-! ## Claim C4: the options table -/

/-- Metadata with an `options` parameter documenting `options.units` with
default `'kilometers'` (single quotes are part of the default string, as
`documentation.js` reports it). -/
def mdC4 : Metadata :=
  { name := "x"
    description := none
    examples := []
    returns := none
    params := some [⟨"options", some (.nameExpr "Object"), ⟨[]⟩, 1,
      some [⟨"options.units", some (.nameExpr "string"), some "'kilometers'",
        ⟨[⟨[.text "unit of measurement"]⟩]⟩⟩]⟩]
    throws := none }

/-- **C4, counterexample.**  `prop.default.replace('\\', '')` removes one
literal backslash — it does not strip quotes.  For the documented default
`'kilometers'` (which contains no backslash) the emitted record is
`{ Prop: "units", Default: "'kilometers'" }`, not `Default: "kilometers"`
as the claim states. -/
theorem c4_counterexample :
    getOptions [] mdC4 =
      .ok (.arr [⟨"units", some "string", some "'kilometers'", "unit of measurement"⟩]) ∧
      (some "'kilometers'" : Option String) ≠ some "kilometers" := by
  refine ⟨rfl, by decide⟩

/-- What `getOptions` emits for one documented property: the name with the
first `"options."` occurrence removed, the resolved type, the default with
one literal backslash removed (`null` when absent or falsy-empty), and the
rendered description. -/
def optSpec (paths : Paths) (prop : Property) (r : OptRecord) : Prop :=
  r.Prop' = jsReplaceFirst prop.name "options." "" ∧
  (prop.default = none → r.Default = none) ∧
  (∀ d, prop.default = some d →
    r.Default = (if d = "" then none else some (jsReplaceFirst d "\\" ""))) ∧
  (∃ ty, getType paths false prop.type = .ok ty ∧ r.Type' = ty) ∧
  (∀ para rest, prop.description.children = para :: rest →
    r.Description = concatTagsStr paths false para.children)

/-- **C4 (amended).**  `options` is computed only when some parameter is
literally named `"options"` (the first such parameter): each documented
property yields a record whose `Prop` strips the `"options."` prefix, whose
`Default` is the declared default with one literal backslash removed — the
quotes of a default such as `'kilometers'` are retained, giving
`{ Prop: "units", Default: "'kilometers'", ... }` — paired with its type
and description; `null` when no `"options"` parameter exists, `false`
when no parameters are declared at all. -/
theorem c4_amended (paths : Paths) (m : Metadata) :
    (m.params = none → getOptions paths m = .ok .fls) ∧
    (∀ ps, m.params = some ps → ps.filter (fun p => p.name == "options") = [] →
      getOptions paths m = .ok .nul) ∧
    (∀ ps p0 restf props out, m.params = some ps →
      ps.filter (fun p => p.name == "options") = p0 :: restf →
      p0.properties = some props →
      getOptions paths m = .ok (.arr out) →
      List.Forall₂ (optSpec paths) props out) := by
  refine ⟨?_, ?_, ?_⟩
  · intro h; simp [getOptions, h]
  · intro ps h1 h2; simp [getOptions, h1, h2]
  · intro ps p0 restf props out h1 h2 h3 h4
    simp only [getOptions, h1, h2, h3] at h4
    rw [show (do
        let es ← mapE (fun prop => do
          let defaultVal : Option String :=
            match prop.default with
            | some d => if d = "" then none else some (jsReplaceFirst d "\\" "")
            | none => none
          let ty ← getType paths false prop.type
          match prop.description.children with
          | [] => Except.error ()
          | para :: _ =>
            pure (⟨jsReplaceFirst prop.name "options." "", ty, defaultVal,
              concatTagsStr paths false para.children⟩ : OptRecord)) props
        pure (OptionsVal.arr es) : Except Unit OptionsVal) =
      (mapE (fun prop => do
          let defaultVal : Option String :=
            match prop.default with
            | some d => if d = "" then none else some (jsReplaceFirst d "\\" "")
            | none => none
          let ty ← getType paths false prop.type
          match prop.description.children with
          | [] => Except.error ()
          | para :: _ =>
            pure (⟨jsReplaceFirst prop.name "options." "", ty, defaultVal,
              concatTagsStr paths false para.children⟩ : OptRecord)) props >>=
        fun es => pure (OptionsVal.arr es)) from rfl] at h4
    rw [exc_bind_ok] at h4
    obtain ⟨es, hm, hp⟩ := h4
    simp only [pure, Except.pure, Except.ok.injEq, OptionsVal.arr.injEq] at hp
    cases hp
    refine (mapE_ok_forall₂ hm).imp ?_
    intro prop r hre
    have hre2 : (getType paths false prop.type >>= fun ty =>
        (match prop.description.children with
        | [] => Except.error ()
        | para :: _ =>
          pure (⟨jsReplaceFirst prop.name "options." "",
            ty,
            (match prop.default with
              | some d => if d = "" then none else some (jsReplaceFirst d "\\" "")
              | none => none),
            concatTagsStr paths false para.children⟩ : OptRecord))) = .ok r := hre
    rw [exc_bind_ok] at hre2
    obtain ⟨ty, hty, hp2⟩ := hre2
    cases hdc : prop.description.children with
    | nil => rw [hdc] at hp2; cases hp2
    | cons para rest =>
      rw [hdc] at hp2
      simp only [pure, Except.pure, Except.ok.injEq] at hp2
      refine ⟨?_, ?_, ?_, ⟨ty, hty, ?_⟩, ?_⟩
      · rw [← hp2]
      · intro hd; rw [← hp2]; simp [hd]
      · intro d hd; rw [← hp2]; simp [hd]
      · rw [← hp2]
      · intro para' rest' hdc'
        rw [hdc] at hdc'
        injection hdc' with hpe _
        rw [← hp2, hpe]

/-- Witness for `c4_amended` at the concrete `options.units` input. -/
theorem c4_amended_witness :
    List.Forall₂ (optSpec [])
      [⟨"options.units", some (.nameExpr "string"), some "'kilometers'",
        ⟨[⟨[.text "unit of measurement"]⟩]⟩⟩]
      [⟨"units", some "string", some "'kilometers'", "unit of measurement"⟩] :=
  (c4_amended [] mdC4).2.2 _ _ [] _ _ rfl rfl rfl rfl

/-! ## Claim C6: union type rendering with manifest links -/

/-- Strings with the same character data are equal. -/
theorem str_eq_of_data {s t : String} (h : s.data = t.data) : s = t := by
  cases s; cases t; exact congrArg String.mk h

/-- String concatenation concatenates character data. -/
theorem jsdata_append (a b : String) : (a ++ b).data = a.data ++ b.data := rfl

/-- **C6.**  For a union of the named types `Number` and `Feature`, rendered
with links enabled, where the manifest lookup (which is case-insensitive
thanks to the upper-cased duplicate keys) resolves `Feature` but not
`Number`, the rendering is the parenthesized pipe-joined form with only
`Feature` hyperlinked. -/
theorem c6_union_type_link (paths : Paths) (url : String)
    (hF : getLink paths "Feature" = some url) (hN : getLink paths "Number" = none) :
    getTypeJ paths true (.union [.nameExpr "Number", .nameExpr "Feature"]) =
      .ok ("(Number | <a target=\"_blank\" href=\"" ++ url ++ "\">Feature</a>)") := by
  have hcl1 : createLink paths true "Number" = "Number" := by
    simp [createLink, hN]
  have hcl2 : createLink paths true "Feature" =
      "<a target=\"_blank\" href=\"" ++ url ++ "\">Feature</a>" := by
    simp only [createLink, hF, if_true]
    rw [show ("\">Feature</a>" : String) = "\">" ++ "Feature" ++ "</a>" from rfl]
    simp [String.append_assoc]
  have hstep : getTypeJ paths true (.union [.nameExpr "Number", .nameExpr "Feature"]) =
      .ok ("(" ++ String.intercalate " | "
        [createLink paths true "Number", createLink paths true "Feature"] ++ ")") := rfl
  rw [hstep, hcl1, hcl2]
  have hint : ∀ a b : String, String.intercalate " | " [a, b] = a ++ " | " ++ b := by
    intro a b; rfl
  rw [hint]
  rw [show ("\">Feature</a>)" : String) = "\">Feature</a>" ++ ")" from rfl]
  simp only [String.append_assoc]
  apply congrArg Except.ok
  apply str_eq_of_data
  simp only [jsdata_append]
  simp

/-- Witness for `c6_union_type_link`: a manifest holding only a `Feature`
entry (so the `FEATURE` lookup succeeds via the upper-cased duplicate and
`NUMBER` fails). -/
theorem c6_union_type_link_witness :
    getLink [("Feature", "https://example.com/feature")] "Feature" =
        some "https://example.com/feature" ∧
      getLink [("Feature", "https://example.com/feature")] "Number" = none ∧
      getTypeJ [("Feature", "https://example.com/feature")] true
        (.union [.nameExpr "Number", .nameExpr "Feature"]) =
        .ok "(Number | <a target=\"_blank\" href=\"https://example.com/feature\">Feature</a>)" :=
  ⟨by decide, by decide,
    c6_union_type_link [("Feature", "https://example.com/feature")]
      "https://example.com/feature" (by decide) (by decide)⟩

/-! ## Claim C7: order preservation -/

/-- The observable shape of a group: its name and module names in order. -/
def gShape (g : DocGroup) : String × List String :=
  (g.group, g.modules.map (·.name))

theorem flattenToc_append (l1 l2 : List DocGroup) :
    flattenToc (l1 ++ l2) = flattenToc l1 ++ flattenToc l2 := by
  simp [flattenToc]

/-- The skeleton read back as a TOC equals the remaining input TOC appended
to the accumulator's contribution. -/
theorem buildR_flatten : ∀ (toc : List TocItem) (acc out : List DocGroup),
    buildR toc acc = some out → flattenToc out.reverse = flattenToc acc.reverse ++ toc := by
  intro toc
  induction toc with
  | nil =>
    intro acc out h
    simp only [buildR, Option.some.injEq] at h
    subst h
    simp
  | cons t rest ih =>
    intro acc out h
    cases t with
    | group n =>
      have hstep := ih (⟨n, []⟩ :: acc) out (by simpa [buildR] using h)
      rw [hstep]
      simp [flattenToc_append, flattenToc]
    | moduleName n =>
      cases acc with
      | nil => simp [buildR] at h
      | cons g gs =>
        have hstep := ih (⟨g.group, g.modules ++ [⟨n, false, none⟩]⟩ :: gs) out
          (by simpa [buildR] using h)
        rw [hstep]
        simp [flattenToc_append, flattenToc, List.map_append]

/-- `setFirstInModules` never changes the module names. -/
theorem setFirstInModules_names (nm : String) (nf : NormFields) :
    ∀ ms : List ModuleEntry, ((setFirstInModules nm nf ms).1).map (·.name) = ms.map (·.name) := by
  intro ms
  induction ms with
  | nil => rfl
  | cons m rest ih =>
    by_cases hm : m.name == nm
    · simp [setFirstInModules, hm]
    · simp [setFirstInModules, hm, ih]

/-- `setFirst` never changes the group/module shape. -/
theorem setFirst_shape (nm : String) (nf : NormFields) :
    ∀ gs : List DocGroup, (setFirst nm nf gs).map gShape = gs.map gShape := by
  intro gs
  induction gs with
  | nil => rfl
  | cons g rest ih =>
    by_cases hf : (setFirstInModules nm nf g.modules).2
    · simp [setFirst, hf, gShape, setFirstInModules_names]
    · simp [setFirst, hf, gShape, ih]

theorem updateFirst_shape {paths : Paths} {parent : Option String} {npm : String}
    {gs gs' : List DocGroup} {md : Metadata}
    (h : updateFirst paths parent npm gs md = .ok gs') :
    gs'.map gShape = gs.map gShape := by
  by_cases hh : hasModule gs md.name
  · unfold updateFirst at h
    rw [if_pos hh] at h
    have h2 : (computeNorm paths parent npm md >>= fun nf => pure (setFirst md.name nf gs))
        = .ok gs' := h
    rw [exc_bind_ok] at h2
    obtain ⟨nf, _, hp⟩ := h2
    simp only [pure, Except.pure, Except.ok.injEq] at hp
    rw [← hp]
    exact setFirst_shape md.name nf gs
  · unfold updateFirst at h
    rw [if_neg hh] at h
    have h3 : gs = gs' := Except.ok.inj h
    rw [← h3]

theorem foldUpdate_shape {paths : Paths} {parent : Option String} {npm : String} :
    ∀ (mds : List Metadata) (gs gs' : List DocGroup),
      List.foldlM (fun acc md => updateFirst paths parent npm acc md) gs mds = .ok gs' →
      gs'.map gShape = gs.map gShape := by
  intro mds
  induction mds with
  | nil =>
    intro gs gs' h
    simp only [List.foldlM, pure, Except.pure, Except.ok.injEq] at h
    rw [h]
  | cons md rest ih =>
    intro gs gs' h
    have h2 : (updateFirst paths parent npm gs md >>= fun gs1 =>
        List.foldlM (fun acc md => updateFirst paths parent npm acc md) gs1 rest) = .ok gs' := h
    rw [exc_bind_ok] at h2
    obtain ⟨gs1, hu, hrest⟩ := h2
    rw [ih gs1 gs' hrest, updateFirst_shape hu]

theorem normalizePkg_shape {paths : Paths} {npm : String} {docsList : List Metadata}
    {gs gs' : List DocGroup} (h : normalizePkg paths gs npm docsList = .ok gs') :
    gs'.map gShape = gs.map gShape :=
  foldUpdate_shape docsList gs gs' h

theorem runQueue_shape {paths : Paths} :
    ∀ (pkgs : List Pkg) (gs gs' : List DocGroup),
      (runQueue paths pkgs gs).2 = some gs' → gs'.map gShape = gs.map gShape := by
  intro pkgs
  induction pkgs with
  | nil =>
    intro gs gs' h
    simp only [runQueue, Option.some.injEq] at h
    rw [h]
  | cons p rest ih =>
    intro gs gs' h
    unfold runQueue at h
    split at h
    · simp at h
    · split at h
      · simp at h
      · next gs1 heq2 =>
        simp only at h
        rw [ih gs1 gs' h, normalizePkg_shape heq2]

/-- **C7.**  When the configuration is produced, the groups and the modules
inside each group appear in exactly the manifest TOC's order: the skeleton
flattens back to the input TOC, and normalization preserves each group's
name and ordered module-name list (so it neither reorders nor inserts nor
deletes entries). -/
theorem c7_order_preserved (paths : Paths) (toc : List TocItem) (pkgs : List Pkg)
    (gs gs' : List DocGroup)
    (h1 : buildModules toc = some gs) (h2 : (runQueue paths pkgs gs).2 = some gs') :
    flattenToc gs = toc ∧ gs'.map gShape = gs.map gShape := by
  constructor
  · unfold buildModules at h1
    cases hb : buildR toc [] with
    | none => rw [hb] at h1; cases h1
    | some out =>
      rw [hb] at h1
      simp only [Option.map_some', Option.some.injEq] at h1
      rw [← h1]
      have := buildR_flatten toc [] out hb
      simpa [flattenToc] using this
  · exact runQueue_shape pkgs gs gs' h2

/-- Witness for `c7_order_preserved` on a two-group manifest with no
packages. -/
theorem c7_order_preserved_witness :
    flattenToc [⟨"Measurement", [⟨"along", false, none⟩]⟩, ⟨"Helper", [⟨"point", false, none⟩]⟩] =
      [.group "Measurement", .moduleName "along", .group "Helper", .moduleName "point"] ∧
      ([⟨"Measurement", [⟨"along", false, none⟩]⟩, ⟨"Helper", [⟨"point", false, none⟩]⟩]
          : List DocGroup).map gShape =
        ([⟨"Measurement", [⟨"along", false, none⟩]⟩, ⟨"Helper", [⟨"point", false, none⟩]⟩]
          : List DocGroup).map gShape :=
  c7_order_preserved [] [.group "Measurement", .moduleName "along", .group "Helper",
    .moduleName "point"] []
    [⟨"Measurement", [⟨"along", false, none⟩]⟩, ⟨"Helper", [⟨"point", false, none⟩]⟩]
    [⟨"Measurement", [⟨"along", false, none⟩]⟩, ⟨"Helper", [⟨"point", false, none⟩]⟩]
    rfl rfl

/-! ## Claim C8: unmatched placeholders and unmatched metadata -/

/-- The names of all metadata symbols produced by the processed packages. -/
def mdNames (pkgs : List Pkg) : List String :=
  pkgs.flatMap (fun p =>
    match p.build with
    | .ok ds => ds.map (·.name)
    | .error _ => [])

/-- A module entry is only rewritten when its name is in `L`. -/
def modUntouched (L : List String) (m m' : ModuleEntry) : Prop :=
  m'.name = m.name ∧ (m.name ∉ L → m' = m)

/-- A group's name never changes and its modules are only rewritten when
named in `L`. -/
def grpUntouched (L : List String) (g g' : DocGroup) : Prop :=
  g'.group = g.group ∧ List.Forall₂ (modUntouched L) g.modules g'.modules

theorem grpUntouched_refl (L : List String) (gs : List DocGroup) :
    List.Forall₂ (grpUntouched L) gs gs := by
  rw [List.forall₂_same]
  intro g _
  exact ⟨rfl, by rw [List.forall₂_same]; exact fun m _ => ⟨rfl, fun _ => rfl⟩⟩

theorem grpUntouched_trans {L L' : List String} :
    ∀ {gs gs1 gs2 : List DocGroup}, List.Forall₂ (grpUntouched L) gs gs1 →
      List.Forall₂ (grpUntouched L') gs1 gs2 →
      List.Forall₂ (grpUntouched (L ++ L')) gs gs2 := by
  intro gs gs1 gs2 h1 h2
  refine forall₂_trans_comp ?_ h1 h2
  intro g g1 g2 hg1 hg2
  refine ⟨hg2.1.trans hg1.1, ?_⟩
  refine forall₂_trans_comp ?_ hg1.2 hg2.2
  intro m m1 m2 hm1 hm2
  refine ⟨hm2.1.trans hm1.1, ?_⟩
  intro hnin
  rw [List.mem_append] at hnin
  push_neg at hnin
  have e1 : m1 = m := hm1.2 hnin.1
  have e2 : m2 = m1 := hm2.2 (by rw [hm1.1]; exact hnin.2)
  rw [e2, e1]

theorem setFirstInModules_untouched (nm : String) (nf : NormFields) :
    ∀ ms : List ModuleEntry,
      List.Forall₂ (modUntouched [nm]) ms (setFirstInModules nm nf ms).1 := by
  intro ms
  induction ms with
  | nil => exact .nil
  | cons m rest ih =>
    by_cases hm : m.name == nm
    · simp only [setFirstInModules, hm, if_true]
      refine .cons ⟨rfl, ?_⟩ (by rw [List.forall₂_same]; exact fun x _ => ⟨rfl, fun _ => rfl⟩)
      intro hnin
      exact absurd (by simpa using (beq_iff_eq.mp hm)) (by simpa using hnin)
    · simp only [setFirstInModules, hm, if_false]
      exact .cons ⟨rfl, fun _ => rfl⟩ ih

theorem setFirst_untouched (nm : String) (nf : NormFields) :
    ∀ gs : List DocGroup, List.Forall₂ (grpUntouched [nm]) gs (setFirst nm nf gs) := by
  intro gs
  induction gs with
  | nil => exact .nil
  | cons g rest ih =>
    by_cases hf : (setFirstInModules nm nf g.modules).2
    · simp only [setFirst, hf, if_true]
      exact .cons ⟨rfl, setFirstInModules_untouched nm nf g.modules⟩ (grpUntouched_refl _ _)
    · simp only [setFirst, hf, if_false]
      exact .cons ⟨rfl, by rw [List.forall₂_same]; exact fun m _ => ⟨rfl, fun _ => rfl⟩⟩ ih

theorem updateFirst_untouched {paths : Paths} {parent : Option String} {npm : String}
    {gs gs' : List DocGroup} {md : Metadata}
    (h : updateFirst paths parent npm gs md = .ok gs') :
    List.Forall₂ (grpUntouched [md.name]) gs gs' := by
  by_cases hh : hasModule gs md.name
  · unfold updateFirst at h
    rw [if_pos hh] at h
    have h2 : (computeNorm paths parent npm md >>= fun nf => pure (setFirst md.name nf gs))
        = .ok gs' := h
    rw [exc_bind_ok] at h2
    obtain ⟨nf, _, hp⟩ := h2
    simp only [pure, Except.pure, Except.ok.injEq] at hp
    rw [← hp]
    exact setFirst_untouched md.name nf gs
  · unfold updateFirst at h
    rw [if_neg hh] at h
    rw [← Except.ok.inj h]
    exact grpUntouched_refl _ _

theorem foldUpdate_untouched {paths : Paths} {parent : Option String} {npm : String} :
    ∀ (mds : List Metadata) (gs gs' : List DocGroup),
      List.foldlM (fun acc md => updateFirst paths parent npm acc md) gs mds = .ok gs' →
      List.Forall₂ (grpUntouched (mds.map (·.name))) gs gs' := by
  intro mds
  induction mds with
  | nil =>
    intro gs gs' h
    simp only [List.foldlM, pure, Except.pure, Except.ok.injEq] at h
    rw [← h]
    exact grpUntouched_refl _ _
  | cons md rest ih =>
    intro gs gs' h
    have h2 : (updateFirst paths parent npm gs md >>= fun gs1 =>
        List.foldlM (fun acc md => updateFirst paths parent npm acc md) gs1 rest) = .ok gs' := h
    rw [exc_bind_ok] at h2
    obtain ⟨gs1, hu, hrest⟩ := h2
    have := grpUntouched_trans (updateFirst_untouched hu) (ih gs1 gs' hrest)
    simpa using this

theorem runQueue_untouched {paths : Paths} :
    ∀ (pkgs : List Pkg) (gs gs' : List DocGroup),
      (runQueue paths pkgs gs).2 = some gs' →
      List.Forall₂ (grpUntouched (mdNames pkgs)) gs gs' := by
  intro pkgs
  induction pkgs with
  | nil =>
    intro gs gs' h
    simp only [runQueue, Option.some.injEq] at h
    rw [← h]
    exact grpUntouched_refl _ _
  | cons p rest ih =>
    intro gs gs' h
    unfold runQueue at h
    split at h
    · simp at h
    · next docsList heq =>
      split at h
      · simp at h
      · next gs1 heq2 =>
        simp only at h
        have hfirst : List.Forall₂ (grpUntouched (docsList.map (·.name))) gs gs1 :=
          foldUpdate_untouched docsList gs gs1 heq2
        have hcomp := grpUntouched_trans hfirst (ih gs1 gs' h)
        have hnames : mdNames (p :: rest) = docsList.map (·.name) ++ mdNames rest := by
          simp [mdNames, heq]
        rw [hnames]
        exact hcomp

/-- Every module placeholder created from the TOC is `{ name, hidden: false }`
with no normalized fields. -/
theorem buildR_initial : ∀ (toc : List TocItem) (acc out : List DocGroup),
    buildR toc acc = some out →
    (∀ g ∈ acc, ∀ m ∈ g.modules, m.hidden = false ∧ m.norm = none) →
    ∀ g ∈ out, ∀ m ∈ g.modules, m.hidden = false ∧ m.norm = none := by
  intro toc
  induction toc with
  | nil =>
    intro acc out h hacc
    simp only [buildR, Option.some.injEq] at h
    rw [← h]
    exact hacc
  | cons t rest ih =>
    intro acc out h hacc
    cases t with
    | group n =>
      refine ih (⟨n, []⟩ :: acc) out (by simpa [buildR] using h) ?_
      intro g hg m hm
      cases hg with
      | head => cases hm
      | tail _ hg => exact hacc g hg m hm
    | moduleName n =>
      cases acc with
      | nil => simp [buildR] at h
      | cons g0 gs0 =>
        refine ih (⟨g0.group, g0.modules ++ [⟨n, false, none⟩]⟩ :: gs0) out
          (by simpa [buildR] using h) ?_
        intro g hg m hm
        cases hg with
        | head =>
          rw [List.mem_append] at hm
          cases hm with
          | inl hm => exact hacc g0 (List.mem_cons_self _ _) m hm
          | inr hm =>
            rw [List.mem_singleton] at hm
            rw [hm]
            exact ⟨rfl, rfl⟩
        | tail _ hg => exact hacc g (List.mem_cons_of_mem _ hg) m hm

theorem forall₂_imp_mem {α β : Type} {R S : α → β → Prop} :
    ∀ {l1 : List α} {l2 : List β}, (∀ a b, a ∈ l1 → R a b → S a b) →
      List.Forall₂ R l1 l2 → List.Forall₂ S l1 l2 := by
  intro l1 l2 himp h
  induction h with
  | nil => exact .nil
  | cons hr hrest ih =>
    exact .cons (himp _ _ (List.mem_cons_self _ _) hr)
      (ih (fun a b ha => himp a b (List.mem_cons_of_mem _ ha)))

/-- **C8.**  A module placeholder whose name matches no metadata symbol of
any processed package comes out exactly as it was created,
`{ name, hidden: false }` with no other (normalized) fields; and a
metadata entry matching no module placeholder is discarded with no error
and no change to the tree. -/
theorem c8_unmatched (paths : Paths) (toc : List TocItem) (pkgs : List Pkg)
    (gs gs' : List DocGroup)
    (h1 : buildModules toc = some gs) (h2 : (runQueue paths pkgs gs).2 = some gs') :
    List.Forall₂ (fun g g' => g'.group = g.group ∧
      List.Forall₂ (fun m m' => m'.name = m.name ∧
        (m.name ∉ mdNames pkgs → m' = ⟨m.name, false, none⟩)) g.modules g'.modules) gs gs' ∧
    (∀ md parent npm, (∀ g ∈ gs, ∀ mm ∈ g.modules, mm.name ≠ md.name) →
      updateFirst paths parent npm gs md = .ok gs) := by
  constructor
  · have hini : ∀ g ∈ gs, ∀ m ∈ g.modules, m.hidden = false ∧ m.norm = none := by
      unfold buildModules at h1
      cases hb : buildR toc [] with
      | none => rw [hb] at h1; cases h1
      | some out =>
        rw [hb] at h1
        simp only [Option.map_some', Option.some.injEq] at h1
        intro g hg m hm
        refine buildR_initial toc [] out hb (by intro g hg; cases hg) g ?_ m hm
        rw [← h1] at hg
        simpa using hg
    refine forall₂_imp_mem ?_ (runQueue_untouched pkgs gs gs' h2)
    intro g g' hgmem hg
    refine ⟨hg.1, ?_⟩
    refine forall₂_imp_mem ?_ hg.2
    intro m m' hmmem hm
    refine ⟨hm.1, ?_⟩
    intro hnin
    obtain ⟨hhid, hnorm⟩ := hini g hgmem m hmmem
    rw [hm.2 hnin]
    cases m with
    | mk nm hid no =>
      simp only at hhid hnorm
      rw [hhid, hnorm]
  · intro md parent npm hno
    have hhm : ¬ hasModule gs md.name = true := by
      unfold hasModule
      rw [List.any_eq_true]
      rintro ⟨g, hg, hany⟩
      rw [List.any_eq_true] at hany
      obtain ⟨m, hm, hbeq⟩ := hany
      exact hno g hg m hm (beq_iff_eq.mp hbeq)
    unfold updateFirst
    rw [if_neg hhm]
    rfl

/-- Witness for `c8_unmatched`: one unmatched placeholder, one package whose
metadata names a symbol that has no placeholder. -/
theorem c8_unmatched_witness :
    (List.Forall₂ (fun g g' => g'.group = g.group ∧
      List.Forall₂ (fun m m' => m'.name = m.name ∧
        (m.name ∉ mdNames [⟨"turf-other", .ok [⟨"other", some ⟨[⟨[.text "d"]⟩]⟩, [], none,
          none, none⟩]⟩] → m' = ⟨m.name, false, none⟩)) g.modules g'.modules)
      ([⟨"G", [⟨"along", false, none⟩]⟩] : List DocGroup)
      ([⟨"G", [⟨"along", false, none⟩]⟩] : List DocGroup) ∧
    (∀ md parent npm,
      (∀ g ∈ ([⟨"G", [⟨"along", false, none⟩]⟩] : List DocGroup), ∀ mm ∈ g.modules,
        mm.name ≠ md.name) →
      updateFirst [] parent npm [⟨"G", [⟨"along", false, none⟩]⟩] md =
        .ok [⟨"G", [⟨"along", false, none⟩]⟩])) :=
  c8_unmatched [] [.group "G", .moduleName "along"]
    [⟨"turf-other", .ok [⟨"other", some ⟨[⟨[.text "d"]⟩]⟩, [], none, none, none⟩]⟩]
    [⟨"G", [⟨"along", false, none⟩]⟩] [⟨"G", [⟨"along", false, none⟩]⟩] rfl rfl

/-! ## Claim C9: extraction failure aborts the run -/

/-- The processed-package names always form a prefix of the package list. -/
theorem runQueue_processed_prefix (paths : Paths) :
    ∀ (pkgs : List Pkg) (gs : List DocGroup),
      (runQueue paths pkgs gs).1 <+: pkgs.map (·.name) := by
  intro pkgs
  induction pkgs with
  | nil => intro gs; exact List.nil_prefix
  | cons p rest ih =>
    intro gs
    unfold runQueue
    split
    · exact ⟨rest.map (·.name), by simp⟩
    · split
      · exact ⟨rest.map (·.name), by simp⟩
      · next gs1 heq2 =>
        simp only [List.map_cons, List.cons_prefix_cons]
        exact ⟨trivial, ih gs1⟩

/-- Success means every extractor call succeeded and every package was
processed, in order. -/
theorem runQueue_ok (paths : Paths) :
    ∀ (pkgs : List Pkg) (gs : List DocGroup),
      ((runQueue paths pkgs gs).2).isSome →
      (∀ p ∈ pkgs, ∃ ds, p.build = .ok ds) ∧
      (runQueue paths pkgs gs).1 = pkgs.map (·.name) := by
  intro pkgs
  induction pkgs with
  | nil =>
    intro gs _
    exact ⟨fun p hp => absurd hp (List.not_mem_nil p), rfl⟩
  | cons p rest ih =>
    intro gs h
    unfold runQueue at h ⊢
    split at h
    · simp at h
    · next docsList heq =>
      split at h
      · simp at h
      · next gs1 heq2 =>
        simp only at h
        obtain ⟨hall, hnames⟩ := ih gs1 h
        refine ⟨?_, by simpa using hnames⟩
        intro q hq
        cases hq with
        | head => exact ⟨docsList, heq⟩
        | tail _ hq => exact hall q hq

/-- A rejected extractor promise yields no output and stops the queue: at
most the packages up to and including the failing one ever start. -/
theorem runQueue_fail (paths : Paths) :
    ∀ (pkgs : List Pkg) (gs : List DocGroup) (i : Nat) (p : Pkg),
      pkgs[i]? = some p → (∀ ds, p.build ≠ .ok ds) →
      (runQueue paths pkgs gs).2 = none ∧ (runQueue paths pkgs gs).1.length ≤ i + 1 := by
  intro pkgs
  induction pkgs with
  | nil => intro gs i p hp; simp at hp
  | cons q rest ih =>
    intro gs i p hp hfail
    cases i with
    | zero =>
      have hqp : q = p := by simpa using hp
      cases hb : q.build with
      | error e =>
        refine ⟨?_, ?_⟩ <;> simp [runQueue, hb]
      | ok ds => exact absurd (hqp ▸ hb) (hfail ds)
    | succ j =>
      rw [List.getElem?_cons_succ] at hp
      cases hb : q.build with
      | error e =>
        refine ⟨?_, ?_⟩ <;> simp [runQueue, hb]
      | ok docsList =>
        cases hn : normalizePkg paths gs q.name docsList with
        | error e =>
          refine ⟨?_, ?_⟩ <;> simp [runQueue, hb, hn]
        | ok gs1 =>
          obtain ⟨h2, h1⟩ := ih gs1 j p hp hfail
          refine ⟨?_, ?_⟩
          · simp [runQueue, hb, hn, h2]
          · simp only [runQueue, hb, hn]
            simp only [List.length_cons]
            omega

/-- **C9.**  If any package's extraction rejects, the configuration file is
never written and no package past the failing one is processed; the file is
written only when every package's extraction succeeded, after all of them
(all-or-nothing). -/
theorem c9_all_or_nothing (paths : Paths) (pkgs : List Pkg) (gs : List DocGroup) :
    (((runQueue paths pkgs gs).2).isSome →
      (∀ p ∈ pkgs, ∃ ds, p.build = .ok ds) ∧
      (runQueue paths pkgs gs).1 = pkgs.map (·.name)) ∧
    ((runQueue paths pkgs gs).1 <+: pkgs.map (·.name)) ∧
    (∀ i p, pkgs[i]? = some p → (∀ ds, p.build ≠ .ok ds) →
      (runQueue paths pkgs gs).2 = none ∧
      (runQueue paths pkgs gs).1.length ≤ i + 1 ∧
      (∀ toc, configOutput paths toc pkgs = none)) := by
  refine ⟨runQueue_ok paths pkgs gs, runQueue_processed_prefix paths pkgs gs, ?_⟩
  intro i p hp hfail
  obtain ⟨h2, h1⟩ := runQueue_fail paths pkgs gs i p hp hfail
  refine ⟨h2, h1, ?_⟩
  intro toc
  unfold configOutput
  cases hb : buildModules toc with
  | none => rfl
  | some gs0 =>
    obtain ⟨h2', _⟩ := runQueue_fail paths pkgs gs0 i p hp hfail
    simp [h2']

/-- Witness for `c9_all_or_nothing`: two packages, the first of which
rejects. -/
theorem c9_all_or_nothing_witness :
    (((runQueue [] [⟨"turf-bad", .error ()⟩, ⟨"turf-good", .ok []⟩] []).2).isSome →
      (∀ p ∈ [⟨"turf-bad", .error ()⟩, ⟨"turf-good", .ok []⟩], ∃ ds, Pkg.build p = .ok ds) ∧
      (runQueue [] [⟨"turf-bad", .error ()⟩, ⟨"turf-good", .ok []⟩] []).1 =
        [⟨"turf-bad", .error ()⟩, ⟨"turf-good", .ok []⟩].map (Pkg.name ·)) ∧
    ((runQueue [] [⟨"turf-bad", .error ()⟩, ⟨"turf-good", .ok []⟩] []).1 <+:
      [⟨"turf-bad", .error ()⟩, ⟨"turf-good", .ok []⟩].map (Pkg.name ·)) ∧
    (∀ i p, [⟨"turf-bad", .error ()⟩, ⟨"turf-good", .ok []⟩][i]? = some p →
      (∀ ds, Pkg.build p ≠ .ok ds) →
      (runQueue [] [⟨"turf-bad", .error ()⟩, ⟨"turf-good", .ok []⟩] []).2 = none ∧
      (runQueue [] [⟨"turf-bad", .error ()⟩, ⟨"turf-good", .ok []⟩] []).1.length ≤ i + 1 ∧
      (∀ toc, configOutput [] toc [⟨"turf-bad", .error ()⟩, ⟨"turf-good", .ok []⟩] = none)) :=
  c9_all_or_nothing [] [⟨"turf-bad", .error ()⟩, ⟨"turf-good", .ok []⟩] []

/-! ## Claim C3: the params table -/

/-- Metadata with three typed parameters on source lines 10, 5 and 1, the
middle one (line 5) having an empty description. -/
def mdC3 : Metadata :=
  { name := "x"
    description := none
    examples := []
    returns := none
    params := some
      [⟨"a", some (.nameExpr "Number"), ⟨[⟨[.text "descA"]⟩]⟩, 10, none⟩,
       ⟨"b", some (.nameExpr "Number"), ⟨[]⟩, 5, none⟩,
       ⟨"c", some (.nameExpr "Number"), ⟨[⟨[.text "descC"]⟩]⟩, 1, none⟩]
    throws := none }

/-- **C3, counterexample.**  The claim says the rows are sorted ascending by
source line number.  With the `false` placeholder (line-5 parameter, empty
description) interleaved, the comparator returns `NaN`→`0` against the
placeholder, V8's run detection sees a single "ascending" run, and the
array is left as-is: the line-10 row (`"a"`) stays *before* the line-1 row
(`"c"`), so the rows are not in ascending line order (they would have to be
`descC` first). -/
theorem c3_counterexample :
    getParams [] mdC3 =
      .ok (.arr [some ⟨"a", "Number", "descA"⟩, none, some ⟨"c", "Number", "descC"⟩]) ∧
    ([some (⟨"a", "Number", "descA"⟩ : ParamRecord), none,
        some ⟨"c", "Number", "descC"⟩].filterMap id =
      [⟨"a", "Number", "descA"⟩, ⟨"c", "Number", "descC"⟩]) ∧
    (⟨"a", "Number", "descA"⟩ : ParamRecord) ≠ ⟨"c", "Number", "descC"⟩ := by
  refine ⟨rfl, by decide, by decide⟩

/-! ### The V8 sort model: permutation -/

theorem insertAt_perm (l : List α) (p : Nat) (x : α) : (insertAt l p x).Perm (x :: l) := by
  unfold insertAt
  have h1 : (l.take p ++ x :: l.drop p).Perm (x :: (l.take p ++ l.drop p)) := List.perm_middle
  rwa [List.take_append_drop] at h1

theorem binInsert_perm [Inhabited α] (cmp : α → α → Int) (acc : List α) (x : α) :
    (binInsert cmp acc x).Perm (x :: acc) :=
  insertAt_perm _ _ _

theorem countAscRun_append (cmp : α → α → Int) :
    ∀ (l : List α) (prev : α),
      (countAscRun cmp prev l).1 ++ (countAscRun cmp prev l).2 = prev :: l := by
  intro l
  induction l with
  | nil => intro prev; rfl
  | cons x rest ih =>
    intro prev
    by_cases hc : 0 ≤ cmp x prev
    · simp only [countAscRun, hc, if_true, List.cons_append]
      rw [ih x]
    · simp only [countAscRun, hc, if_false, List.cons_append, List.nil_append]

theorem countDescRun_append (cmp : α → α → Int) :
    ∀ (l : List α) (prev : α),
      (countDescRun cmp prev l).1 ++ (countDescRun cmp prev l).2 = prev :: l := by
  intro l
  induction l with
  | nil => intro prev; rfl
  | cons x rest ih =>
    intro prev
    by_cases hc : cmp x prev < 0
    · simp only [countDescRun, hc, if_true, List.cons_append]
      rw [ih x]
    · simp only [countDescRun, hc, if_false, List.cons_append, List.nil_append]

theorem foldl_binInsert_perm [Inhabited α] (cmp : α → α → Int) :
    ∀ (tail run : List α), (tail.foldl (binInsert cmp) run).Perm (run ++ tail) := by
  intro tail
  induction tail with
  | nil => intro run; simp
  | cons x xs ih =>
    intro run
    simp only [List.foldl_cons]
    have h1 := ih (binInsert cmp run x)
    have h2 : (binInsert cmp run x ++ xs).Perm ((x :: run) ++ xs) :=
      (binInsert_perm cmp run x).append_right xs
    have h3 : ((x :: run) ++ xs).Perm (run ++ x :: xs) := by
      rw [List.cons_append]
      exact List.perm_middle.symm
    exact (h1.trans h2).trans h3

theorem jsSortV8_perm [Inhabited α] (cmp : α → α → Int) :
    ∀ l : List α, (jsSortV8 cmp l).Perm l := by
  intro l
  cases l with
  | nil => simp [jsSortV8]
  | cons a t =>
    cases t with
    | nil => simp [jsSortV8]
    | cons b rest =>
      by_cases hc : cmp b a < 0
      · simp only [jsSortV8, hc, if_true]
        refine (foldl_binInsert_perm cmp _ _).trans ?_
        refine ((List.reverse_perm _).append_right _).trans ?_
        rw [List.cons_append, countDescRun_append cmp rest b]
      · simp only [jsSortV8, hc, if_false]
        refine (foldl_binInsert_perm cmp _ _).trans ?_
        rw [List.cons_append, countAscRun_append cmp rest b]

/-! ### The V8 sort model: sortedness for a consistent comparator

The params comparator is only consistent on arrays whose elements all are
real rows (predicate `G` below): there it is the difference of an integer
key.  Under that assumption the run-detection + binary-insertion algorithm
sorts. -/

/-- `cmp` agrees with the key difference on elements satisfying `G`. -/
def KeyCmp {α : Type} (cmp : α → α → Int) (key : α → Int) (G : α → Prop) : Prop :=
  ∀ a b, G a → G b → cmp a b = key a - key b

theorem countAscRun_sorted {α : Type} {cmp : α → α → Int} {key : α → Int} {G : α → Prop}
    (hkc : KeyCmp cmp key G) :
    ∀ (l : List α) (prev : α), G prev → (∀ x ∈ l, G x) →
      List.Sorted (fun a b => key a ≤ key b) (countAscRun cmp prev l).1 ∧
      ∀ y ∈ (countAscRun cmp prev l).1, key prev ≤ key y := by
  intro l
  induction l with
  | nil =>
    intro prev _ _
    refine ⟨by simp [countAscRun], ?_⟩
    intro y hy
    simp only [countAscRun, List.mem_singleton] at hy
    rw [hy]
  | cons x rest ih =>
    intro prev hGp hGl
    have hGx : G x := hGl x (List.mem_cons_self _ _)
    have hGrest : ∀ z ∈ rest, G z := fun z hz => hGl z (List.mem_cons_of_mem _ hz)
    by_cases hc : 0 ≤ cmp x prev
    · have hle : key prev ≤ key x := by
        have h := hkc x prev hGx hGp
        omega
      obtain ⟨hs, hall⟩ := ih x hGx hGrest
      have hshape : (countAscRun cmp prev (x :: rest)).1 = prev :: (countAscRun cmp x rest).1 := by
        simp [countAscRun, hc]
      constructor
      · rw [hshape, List.sorted_cons]
        exact ⟨fun b hb => le_trans hle (hall b hb), hs⟩
      · intro y hy
        rw [hshape] at hy
        cases hy with
        | head => exact le_refl _
        | tail _ hy => exact le_trans hle (hall y hy)
    · have hshape : (countAscRun cmp prev (x :: rest)).1 = [prev] := by
        simp [countAscRun, hc]
      refine ⟨by rw [hshape]; simp, ?_⟩
      intro y hy
      rw [hshape, List.mem_singleton] at hy
      rw [hy]

theorem countDescRun_sorted {α : Type} {cmp : α → α → Int} {key : α → Int} {G : α → Prop}
    (hkc : KeyCmp cmp key G) :
    ∀ (l : List α) (prev : α), G prev → (∀ x ∈ l, G x) →
      List.Sorted (fun a b => key b ≤ key a) (countDescRun cmp prev l).1 ∧
      ∀ y ∈ (countDescRun cmp prev l).1, key y ≤ key prev := by
  intro l
  induction l with
  | nil =>
    intro prev _ _
    refine ⟨by simp [countDescRun], ?_⟩
    intro y hy
    simp only [countDescRun, List.mem_singleton] at hy
    rw [hy]
  | cons x rest ih =>
    intro prev hGp hGl
    have hGx : G x := hGl x (List.mem_cons_self _ _)
    have hGrest : ∀ z ∈ rest, G z := fun z hz => hGl z (List.mem_cons_of_mem _ hz)
    by_cases hc : cmp x prev < 0
    · have hle : key x ≤ key prev := by
        have h := hkc x prev hGx hGp
        omega
      obtain ⟨hs, hall⟩ := ih x hGx hGrest
      have hshape : (countDescRun cmp prev (x :: rest)).1
          = prev :: (countDescRun cmp x rest).1 := by
        simp [countDescRun, hc]
      constructor
      · rw [hshape, List.sorted_cons]
        exact ⟨fun b hb => le_trans (hall b hb) hle, hs⟩
      · intro y hy
        rw [hshape] at hy
        cases hy with
        | head => exact le_refl _
        | tail _ hy => exact le_trans (hall y hy) hle
    · have hshape : (countDescRun cmp prev (x :: rest)).1 = [prev] := by
        simp [countDescRun, hc]
      refine ⟨by rw [hshape]; simp, ?_⟩
      intro y hy
      rw [hshape, List.mem_singleton] at hy
      rw [hy]

/-- The fuelled specification of V8's binary search: given the monotone
pivot predicate and correct boundary invariants, the returned position
splits the array into a not-less prefix and a less suffix. -/
theorem binPos_spec {α : Type} [Inhabited α] (isLess : α → Bool) (acc : List α)
    (mono : ∀ i j, i ≤ j → j < acc.length → isLess (acc.getD i default) = true →
      isLess (acc.getD j default) = true) :
    ∀ (fuel left right : Nat), right - left ≤ fuel → left ≤ right → right ≤ acc.length →
      (∀ j, j < left → isLess (acc.getD j default) = false) →
      (∀ j, right ≤ j → j < acc.length → isLess (acc.getD j default) = true) →
      left ≤ binPos isLess acc left right ∧ binPos isLess acc left right ≤ right ∧
      (∀ j, j < binPos isLess acc left right → isLess (acc.getD j default) = false) ∧
      (∀ j, binPos isLess acc left right ≤ j → j < acc.length →
        isLess (acc.getD j default) = true) := by
  intro fuel
  induction fuel with
  | zero =>
    intro left right hf hlr hra hleft hright
    have heq : left = right := by omega
    have hbp : binPos isLess acc left right = left := by
      unfold binPos
      rw [dif_neg (by omega)]
    rw [hbp]
    refine ⟨le_refl _, by omega, hleft, ?_⟩
    intro j hj hjl
    exact hright j (by omega) hjl
  | succ n ih =>
    intro left right hf hlr hra hleft hright
    by_cases hltr : left < right
    · have hmlt : (left + right) / 2 < right := by omega
      have hmge : left ≤ (left + right) / 2 := by omega
      by_cases hml : isLess (acc.getD ((left + right) / 2) default) = true
      · have hbp : binPos isLess acc left right
            = binPos isLess acc left ((left + right) / 2) := by
          conv_lhs => unfold binPos
          rw [dif_pos hltr, if_pos hml]
        rw [hbp]
        have hright' : ∀ j, (left + right) / 2 ≤ j → j < acc.length →
            isLess (acc.getD j default) = true := by
          intro j hj hjl
          exact mono ((left + right) / 2) j hj hjl hml
        have hres := ih left ((left + right) / 2) (by omega) (by omega) (by omega)
          hleft hright'
        exact ⟨hres.1, by omega, hres.2.2.1, hres.2.2.2⟩
      · have hbp : binPos isLess acc left right
            = binPos isLess acc ((left + right) / 2 + 1) right := by
          conv_lhs => unfold binPos
          rw [dif_pos hltr, if_neg hml]
        rw [hbp]
        have hleft' : ∀ j, j < (left + right) / 2 + 1 →
            isLess (acc.getD j default) = false := by
          intro j hj
          by_cases hjl : j < left
          · exact hleft j hjl
          · cases hil : isLess (acc.getD j default) with
            | false => rfl
            | true =>
              exact absurd (mono j ((left + right) / 2) (by omega) (by omega) hil) hml
        have hres := ih ((left + right) / 2 + 1) right (by omega) (by omega) hra
          hleft' hright
        exact ⟨by omega, hres.2.1, hres.2.2.1, hres.2.2.2⟩
    · have hbp : binPos isLess acc left right = left := by
        unfold binPos
        rw [dif_neg hltr]
      rw [hbp]
      refine ⟨le_refl _, hlr, hleft, ?_⟩
      intro j hj hjl
      exact hright j (by omega) hjl

theorem take_mem_getD {α : Type} [Inhabited α] {l : List α} {p : Nat} :
    ∀ a ∈ l.take p, ∃ j, j < p ∧ j < l.length ∧ a = l.getD j default := by
  intro a ha
  obtain ⟨n, hget⟩ := List.mem_iff_get.mp ha
  have hlen : (l.take p).length = min p l.length := List.length_take p l
  have h2 : (n : Nat) < min p l.length := lt_of_lt_of_le n.isLt (le_of_eq hlen)
  have hjp : (n : Nat) < p := (Nat.lt_min.mp h2).1
  have hjl : (n : Nat) < l.length := (Nat.lt_min.mp h2).2
  refine ⟨n, hjp, hjl, ?_⟩
  rw [List.getD_eq_get l default hjl, ← hget]
  exact (List.get_take l hjl hjp).symm

theorem drop_mem_getD {α : Type} [Inhabited α] {l : List α} {p : Nat} :
    ∀ a ∈ l.drop p, ∃ j, p ≤ j ∧ j < l.length ∧ a = l.getD j default := by
  intro a ha
  obtain ⟨n, hget⟩ := List.mem_iff_get.mp ha
  have hlen : (l.drop p).length = l.length - p := List.length_drop p l
  have h2 : (n : Nat) < l.length - p := lt_of_lt_of_le n.isLt (le_of_eq hlen)
  have hjl : p + (n : Nat) < l.length := by omega
  refine ⟨p + n, by omega, hjl, ?_⟩
  rw [List.getD_eq_get l default hjl, ← hget]
  exact (List.get_drop l hjl).symm

theorem sorted_insertAt {α : Type} [Inhabited α] {key : α → Int} {l : List α} (x : α)
    (hs : List.Sorted (fun a b => key a ≤ key b) l) (p : Nat)
    (hbefore : ∀ j, j < p → key (l.getD j default) ≤ key x)
    (hafter : ∀ j, p ≤ j → j < l.length → key x ≤ key (l.getD j default)) :
    List.Sorted (fun a b => key a ≤ key b) (insertAt l p x) := by
  unfold insertAt
  have htake : List.Sorted (fun a b => key a ≤ key b) (l.take p) :=
    List.Pairwise.sublist (List.take_sublist p l) hs
  have hdrop : List.Sorted (fun a b => key a ≤ key b) (l.drop p) :=
    List.Pairwise.sublist (List.drop_sublist p l) hs
  refine List.pairwise_append.mpr ⟨htake, ?_, ?_⟩
  · rw [List.pairwise_cons]
    refine ⟨?_, hdrop⟩
    intro b hb
    obtain ⟨j, hjp, hjl, hbe⟩ := drop_mem_getD b hb
    rw [hbe]
    exact hafter j hjp hjl
  · intro a ha b hb
    obtain ⟨j, hjp, hjl, hae⟩ := take_mem_getD a ha
    rw [hae]
    cases hb with
    | head => exact hbefore j hjp
    | tail _ hb =>
      obtain ⟨k, hkp, hkl, hbe⟩ := drop_mem_getD b hb
      rw [hbe]
      exact le_trans (hbefore j hjp) (hafter k hkp hkl)

theorem binInsert_sorted {α : Type} [Inhabited α] {cmp : α → α → Int} {key : α → Int}
    {G : α → Prop} (hkc : KeyCmp cmp key G) (acc : List α) (x : α)
    (hs : List.Sorted (fun a b => key a ≤ key b) acc)
    (hG : ∀ y ∈ acc, G y) (hGx : G x) :
    List.Sorted (fun a b => key a ≤ key b) (binInsert cmp acc x) := by
  have hGd : ∀ j, j < acc.length → G (acc.getD j default) := by
    intro j hj
    rw [List.getD_eq_get acc default hj]
    exact hG _ (List.get_mem _ _ _)
  have hkey : ∀ j, j < acc.length →
      (decide (cmp x (acc.getD j default) < 0) = true ↔
        key x < key (acc.getD j default)) := by
    intro j hj
    rw [decide_eq_true_iff, hkc x _ hGx (hGd j hj)]
    omega
  have hsorted_getD : ∀ i j, i ≤ j → j < acc.length →
      key (acc.getD i default) ≤ key (acc.getD j default) := by
    intro i j hij hjl
    rcases Nat.eq_or_lt_of_le hij with rfl | hlt
    · exact le_refl _
    · have hil : i < acc.length := lt_trans hlt hjl
      rw [List.getD_eq_get acc default hil, List.getD_eq_get acc default hjl]
      exact List.pairwise_iff_get.mp hs ⟨i, hil⟩ ⟨j, hjl⟩ hlt
  have mono : ∀ i j, i ≤ j → j < acc.length →
      decide (cmp x (acc.getD i default) < 0) = true →
      decide (cmp x (acc.getD j default) < 0) = true := by
    intro i j hij hjl hi
    have hil : i < acc.length := Nat.lt_of_le_of_lt hij hjl
    rw [hkey j hjl]
    rw [hkey i hil] at hi
    exact lt_of_lt_of_le hi (hsorted_getD i j hij hjl)
  obtain ⟨_, hple, hplt, hpge⟩ := binPos_spec (fun e => decide (cmp x e < 0)) acc mono
    acc.length 0 acc.length (by omega) (by omega) (le_refl _)
    (fun j hj => absurd hj (Nat.not_lt_zero j))
    (fun j hj hjl => absurd hjl (by omega))
  refine sorted_insertAt x hs _ ?_ ?_
  · intro j hj
    have hjl : j < acc.length := lt_of_lt_of_le hj hple
    have hfalse := hplt j hj
    have hnot : ¬ (key x < key (acc.getD j default)) := by
      intro hcon
      have htrue := (hkey j hjl).mpr hcon
      rw [hfalse] at htrue
      simp at htrue
    omega
  · intro j hpj hjl
    exact le_of_lt ((hkey j hjl).mp (hpge j hpj hjl))

theorem foldl_binInsert_sorted {α : Type} [Inhabited α] {cmp : α → α → Int} {key : α → Int}
    {G : α → Prop} (hkc : KeyCmp cmp key G) :
    ∀ (tail run : List α), List.Sorted (fun a b => key a ≤ key b) run →
      (∀ y ∈ run, G y) → (∀ y ∈ tail, G y) →
      List.Sorted (fun a b => key a ≤ key b) (tail.foldl (binInsert cmp) run) := by
  intro tail
  induction tail with
  | nil => intro run hs _ _; simpa using hs
  | cons x xs ih =>
    intro run hs hGr hGt
    simp only [List.foldl_cons]
    have hGx : G x := hGt x (List.mem_cons_self _ _)
    refine ih (binInsert cmp run x) (binInsert_sorted hkc run x hs hGr hGx) ?_ ?_
    · intro y hy
      have hmem : y ∈ x :: run := (binInsert_perm cmp run x).mem_iff.mp hy
      cases hmem with
      | head => exact hGx
      | tail _ h => exact hGr y h
    · intro y hy
      exact hGt y (List.mem_cons_of_mem _ hy)

theorem jsSortV8_sorted {α : Type} [Inhabited α] {cmp : α → α → Int} {key : α → Int}
    {G : α → Prop} (hkc : KeyCmp cmp key G) :
    ∀ l : List α, (∀ y ∈ l, G y) →
      List.Sorted (fun a b => key a ≤ key b) (jsSortV8 cmp l) := by
  intro l hG
  cases l with
  | nil => simp [jsSortV8]
  | cons a t =>
    cases t with
    | nil => simp [jsSortV8]
    | cons b rest =>
      have hGa : G a := hG a (List.mem_cons_self _ _)
      have hGb : G b := hG b (List.mem_cons_of_mem _ (List.mem_cons_self _ _))
      have hGrest : ∀ z ∈ rest, G z := fun z hz =>
        hG z (List.mem_cons_of_mem _ (List.mem_cons_of_mem _ hz))
      by_cases hc : cmp b a < 0
      · simp only [jsSortV8, hc, if_true]
        obtain ⟨hds, hdall⟩ := countDescRun_sorted hkc rest b hGb hGrest
        have hba : key b < key a := by
          have h := hkc b a hGb hGa
          omega
        have hrunsorted : List.Sorted (fun p q => key q ≤ key p)
            (a :: (countDescRun cmp b rest).1) := by
          rw [List.sorted_cons]
          exact ⟨fun y hy => le_trans (hdall y hy) (le_of_lt hba), hds⟩
        have hrevsorted : List.Sorted (fun p q => key p ≤ key q)
            ((a :: (countDescRun cmp b rest).1).reverse) :=
          List.pairwise_reverse.mpr hrunsorted
        have happ := countDescRun_append cmp rest b
        have hGrun : ∀ y ∈ (a :: (countDescRun cmp b rest).1).reverse, G y := by
          intro y hy
          rw [List.mem_reverse] at hy
          cases hy with
          | head => exact hGa
          | tail _ hy =>
            have hmem : y ∈ b :: rest := by
              rw [← happ]
              exact List.mem_append.mpr (Or.inl hy)
            cases hmem with
            | head => exact hGb
            | tail _ h => exact hGrest y h
        have hGtail : ∀ y ∈ (countDescRun cmp b rest).2, G y := by
          intro y hy
          have hmem : y ∈ b :: rest := by
            rw [← happ]
            exact List.mem_append.mpr (Or.inr hy)
          cases hmem with
          | head => exact hGb
          | tail _ h => exact hGrest y h
        exact foldl_binInsert_sorted hkc _ _ hrevsorted hGrun hGtail
      · simp only [jsSortV8, hc, if_false]
        obtain ⟨has, hall⟩ := countAscRun_sorted hkc rest b hGb hGrest
        have hab : key a ≤ key b := by
          have h := hkc b a hGb hGa
          omega
        have hrunsorted : List.Sorted (fun p q => key p ≤ key q)
            (a :: (countAscRun cmp b rest).1) := by
          rw [List.sorted_cons]
          exact ⟨fun y hy => le_trans hab (hall y hy), has⟩
        have happ := countAscRun_append cmp rest b
        have hGrun : ∀ y ∈ a :: (countAscRun cmp b rest).1, G y := by
          intro y hy
          cases hy with
          | head => exact hGa
          | tail _ hy =>
            have hmem : y ∈ b :: rest := by
              rw [← happ]
              exact List.mem_append.mpr (Or.inl hy)
            cases hmem with
            | head => exact hGb
            | tail _ h => exact hGrest y h
        have hGtail : ∀ y ∈ (countAscRun cmp b rest).2, G y := by
          intro y hy
          have hmem : y ∈ b :: rest := by
            rw [← happ]
            exact List.mem_append.mpr (Or.inr hy)
          cases hmem with
          | head => exact hGb
          | tail _ h => exact hGrest y h
        exact foldl_binInsert_sorted hkc _ _ hrunsorted hGrun hGtail

/-! ### `getParams` characterization -/

/-- What the map step of `getParams` produces for one *typed* parameter:
the JS `false` placeholder when the description is empty, and a
`{ Argument, Type, Description, _lineNum }` row otherwise. -/
def paramSpec (paths : Paths) (p : Param) (e : PEntry) : Prop :=
  (p.description.children = [] → e = .fls) ∧
  (∀ para restc, p.description.children = para :: restc →
    ∃ ty t, p.type = some t ∧ getTypeJ paths true t = .ok ty ∧
      e = .row ⟨p.name, ty, concatTagsStr paths false para.children⟩ p.lineNumber)

/-- The `_lineNum` a sort comparison reads off an intermediate entry
(arbitrary on placeholders, whose comparisons are `NaN`→`0` anyway). -/
def lineOf : PEntry → Int
  | .row _ ln => ln
  | _ => 0

/-- An intermediate entry that is a real row. -/
def isRow : PEntry → Prop := fun e => ∃ r ln, e = PEntry.row r ln

theorem mapParam_type_null {paths : Paths} {p : Param} {e : PEntry}
    (h : mapParam paths p = .ok e) : p.type.isSome = keepParam e := by
  cases ht : p.type with
  | none =>
    have hm0 : mapParam paths p = pure PEntry.typeNull := by
      unfold mapParam
      rw [ht]
    rw [hm0] at h
    rw [← Except.ok.inj h]
    rfl
  | some t =>
    cases hdc : p.description.children with
    | nil =>
      have hm1 : mapParam paths p = pure PEntry.fls := by
        unfold mapParam
        rw [ht, hdc]
      rw [hm1] at h
      rw [← Except.ok.inj h]
      rfl
    | cons para restc =>
      have hm2 : mapParam paths p = (getTypeJ paths true t >>= fun ty =>
          pure (PEntry.row ⟨p.name, ty, concatTagsStr paths false para.children⟩
            p.lineNumber)) := by
        unfold mapParam
        rw [ht, hdc]
      rw [hm2, exc_bind_ok] at h
      obtain ⟨ty, _, hp⟩ := h
      rw [← Except.ok.inj hp]
      rfl

theorem mapParam_spec {paths : Paths} {p : Param} {e : PEntry}
    (h : mapParam paths p = .ok e) (ht : p.type.isSome) : paramSpec paths p e := by
  obtain ⟨t, ht'⟩ := Option.isSome_iff_exists.mp ht
  cases hdc : p.description.children with
  | nil =>
    have hm1 : mapParam paths p = pure PEntry.fls := by
      unfold mapParam
      rw [ht', hdc]
    rw [hm1] at h
    have he := Except.ok.inj h
    constructor
    · intro _
      exact he.symm
    · intro para restc hcon
      rw [hdc] at hcon
      cases hcon
  | cons para restc =>
    have hm2 : mapParam paths p = (getTypeJ paths true t >>= fun ty =>
        pure (PEntry.row ⟨p.name, ty, concatTagsStr paths false para.children⟩
          p.lineNumber)) := by
      unfold mapParam
      rw [ht', hdc]
    rw [hm2, exc_bind_ok] at h
    obtain ⟨ty, hty, hp⟩ := h
    have he := Except.ok.inj hp
    constructor
    · intro hcon
      rw [hdc] at hcon
      cases hcon
    · intro para' restc' hcon
      rw [hdc] at hcon
      injection hcon with h1 h2
      subst h1
      exact ⟨ty, t, ht', hty, he.symm⟩

theorem forall₂_filter_both {α β : Type} {R : α → β → Prop} (pa : α → Bool) (pb : β → Bool)
    (hcomp : ∀ a b, R a b → pa a = pb b) :
    ∀ {l1 : List α} {l2 : List β}, List.Forall₂ R l1 l2 →
      List.Forall₂ R (l1.filter pa) (l2.filter pb) := by
  intro l1 l2 h
  induction h with
  | nil => exact .nil
  | @cons a b l1' l2' hr hrest ih =>
    by_cases hpa : pa a = true
    · have hpb : pb b = true := by rw [← hcomp a b hr]; exact hpa
      simp only [List.filter_cons, hpa, hpb, if_true]
      exact .cons hr ih
    · have hpa' : pa a = false := by
        cases hq : pa a
        · rfl
        · exact absurd hq hpa
      have hpb' : pb b = false := by rw [← hcomp a b hr]; exact hpa'
      simp only [List.filter_cons, hpa', hpb', Bool.false_eq_true, if_false]
      exact ih

/-- **C3 (amended).**  `params` is `false` when no parameters are declared.
Otherwise the typed parameters (and only those — untyped ones are excluded
by the `type !== null` filter) each contribute, via `paramSpec`, a
`{ Argument, Type, Description }` row when their description is non-empty
and a literal `false` placeholder when it is empty; the output (with the
`_lineNum` field stripped) is a permutation of those contributions, ordered
by V8's sort under the `_lineNum` comparator.  When no placeholder occurs
(every typed parameter has a non-empty description) that order is sorted
ascending by source line number; with placeholders present, the comparator
returns `NaN`→`0` against them and ascending row order is *not*
guaranteed (see the counterexample). -/
theorem c3_params_amended (paths : Paths) (m : Metadata) :
    (m.params = none → getParams paths m = .ok .fls) ∧
    (∀ ps out, m.params = some ps → getParams paths m = .ok (.arr out) →
      ∃ qs fl : List PEntry,
        List.Forall₂ (paramSpec paths) (ps.filter (fun p => p.type.isSome)) fl ∧
        qs.Perm fl ∧
        out = qs.map stripLine ∧
        ((∀ p ∈ ps, p.type.isSome → p.description.children ≠ []) →
          List.Sorted (fun a b => lineOf a ≤ lineOf b) qs)) := by
  constructor
  · intro h
    simp [getParams, h]
  · intro ps out h1 h2
    simp only [getParams, h1] at h2
    rw [show (do
        let outParams ← mapE (mapParam paths) ps
        pure (ParamsVal.arr ((jsSortV8 cmpP (outParams.filter keepParam)).map stripLine))
          : Except Unit ParamsVal) =
      (mapE (mapParam paths) ps >>= fun outParams =>
        pure (ParamsVal.arr ((jsSortV8 cmpP (outParams.filter keepParam)).map stripLine)))
      from rfl] at h2
    rw [exc_bind_ok] at h2
    obtain ⟨inter, hm, hp⟩ := h2
    simp only [pure, Except.pure, Except.ok.injEq, ParamsVal.arr.injEq] at hp
    have hf2 := mapE_ok_forall₂ hm
    have hff := forall₂_filter_both (fun p => p.type.isSome) keepParam
      (fun a b hr => mapParam_type_null hr) hf2
    have hspec : List.Forall₂ (paramSpec paths) (ps.filter (fun p => p.type.isSome))
        (inter.filter keepParam) := by
      refine forall₂_imp_mem ?_ hff
      intro p e hpmem hre
      exact mapParam_spec hre (List.mem_filter.mp hpmem).2
    refine ⟨jsSortV8 cmpP (inter.filter keepParam), inter.filter keepParam,
      hspec, jsSortV8_perm cmpP _, hp.symm, ?_⟩
    intro hclean
    have hGfl : ∀ e ∈ inter.filter keepParam, isRow e := by
      intro e he
      obtain ⟨p, hpmem, hre⟩ := forall₂_mem_right hff e he
      have hts : p.type.isSome := (List.mem_filter.mp hpmem).2
      have hps := mapParam_spec hre hts
      have hpin : p ∈ ps := (List.mem_filter.mp hpmem).1
      have hne := hclean p hpin hts
      cases hdc : p.description.children with
      | nil => exact absurd hdc hne
      | cons para restc =>
        obtain ⟨ty, t, _, _, hee⟩ := hps.2 para restc hdc
        exact ⟨_, _, hee⟩
    have hkc : KeyCmp cmpP lineOf isRow := by
      rintro a b ⟨ra, la, hae⟩ ⟨rb, lb, hbe⟩
      rw [hae, hbe]
      rfl
    exact jsSortV8_sorted hkc _ hGfl

/-- Metadata with two typed, documented parameters on lines 7 and 3. -/
def mdC3w : Metadata :=
  { name := "x"
    description := none
    examples := []
    returns := none
    params := some
      [⟨"x", some (.nameExpr "Number"), ⟨[⟨[.text "dx"]⟩]⟩, 7, none⟩,
       ⟨"y", some (.nameExpr "string"), ⟨[⟨[.text "dy"]⟩]⟩, 3, none⟩]
    throws := none }

/-- Witness for `c3_params_amended`: with no placeholders, the two rows come
out sorted ascending by line number (3 before 7). -/
theorem c3_params_amended_witness :
    ∃ qs fl : List PEntry,
      List.Forall₂ (paramSpec [])
        (([⟨"x", some (.nameExpr "Number"), ⟨[⟨[.text "dx"]⟩]⟩, 7, none⟩,
          ⟨"y", some (.nameExpr "string"), ⟨[⟨[.text "dy"]⟩]⟩, 3, none⟩] : List Param).filter
            (fun p => p.type.isSome)) fl ∧
      qs.Perm fl ∧
      ([some ⟨"y", "string", "dy"⟩, some ⟨"x", "Number", "dx"⟩]
          : List (Option ParamRecord)) = qs.map stripLine ∧
      ((∀ p ∈ ([⟨"x", some (.nameExpr "Number"), ⟨[⟨[.text "dx"]⟩]⟩, 7, none⟩,
          ⟨"y", some (.nameExpr "string"), ⟨[⟨[.text "dy"]⟩]⟩, 3, none⟩] : List Param),
          p.type.isSome → p.description.children ≠ []) →
        List.Sorted (fun a b => lineOf a ≤ lineOf b) qs) :=
  (c3_params_amended [] mdC3w).2 _ _ rfl rfl
